import Mathlib

/-!
Verification of the arena-graph rendering engine core against its
natural-language specification.  The development shallowly embeds the
JavaScript sources (`GraphData.js`, `NodeRenderer.js`, `EdgeRenderer.js`,
`LayoutEngine.js`, `Raycaster.js`, `picking.vert`) as Lean definitions and
proves the specified properties about them.  JavaScript numbers are modelled
as rationals, typed arrays as bounded maps with silent out-of-range writes,
fallible operations as `Except`/`Option` values, and object maps as
functional folds that mirror the source's insertion/overwrite behaviour.

The file is organised as definitions first (the embedding), then theorems.
-/

namespace ArenaGraph

/-! ## Typed-array model

`Float32Array` writes outside `[0, size)` are silently dropped in
JavaScript and reads outside the range give `undefined`; both never throw.
`FArr` captures exactly that interface (values idealised as `ℚ`). -/

@[ext]
structure FArr where
  size : Nat
  data : Nat → ℚ

namespace FArr

/-- Out-of-range typed-array writes are silent no-ops. -/
def write (a : FArr) (i : Nat) (v : ℚ) : FArr :=
  if i < a.size then { a with data := fun j => if j = i then v else a.data j } else a

/-- Out-of-range typed-array reads give `undefined`, modelled as `none`. -/
def read (a : FArr) (i : Nat) : Option ℚ :=
  if i < a.size then some (a.data i) else none

/-- A constant-initialised array, as produced by `new Float32Array(n)`. -/
def const (n : Nat) (v : ℚ) : FArr := ⟨n, fun _ => v⟩

end FArr

/-! ## Graph data model (`src/graph/GraphData.js`)

Node and edge records carry the fields the embedded code paths read.
JavaScript string truthiness matters for the membership maps (the empty
string is falsy), so id strings are modelled as `String` and the `!x`
checks are translated as `= none ∨ = some ""`. -/

structure NodeData where
  id : String
  type : String
deriving DecidableEq

structure RawEdge where
  source : String
  target : String
deriving DecidableEq

structure RawElements where
  nodes : Option (List NodeData)
  edges : Option (List RawEdge)
deriving DecidableEq

structure RawInput where
  meta : Option Unit
  elements : Option RawElements
deriving DecidableEq

/-- JavaScript runtime errors of the embedded code paths.  The spec names a
`MalformedGraphError`; no such class exists anywhere in the sources, so the
only failure the constructor can produce is a `TypeError` from accessing a
property of `undefined` or iterating `undefined`. -/
inductive JsError
  | typeError
  | malformedGraphError
deriving DecidableEq

/-- The node partition from the constructor: `d.type === 'channel'` selects
channels. -/
def channelsOf (nodes : List NodeData) : List NodeData :=
  nodes.filter (fun d => d.type == "channel")

/-- All remaining nodes are blocks (the `else` branch of the partition). -/
def blocksOf (nodes : List NodeData) : List NodeData :=
  nodes.filter (fun d => ¬ d.type == "channel")

/-- `CHANNEL_PALETTE` from `src/constants.js`. -/
def CHANNEL_PALETTE : List String :=
  ["#ccff00", "#00f3ff", "#ff3366", "#ff9900", "#00ff88",
   "#ff00ff", "#ffff00", "#33ccff", "#ff6633", "#66ff33",
   "#cc66ff", "#00ffcc"]

/-- `RGB_COLORS` from `src/constants.js`: hard-coded per-channel overrides. -/
def RGB_COLORS (id : String) : Option String :=
  if id = "ch-2711353" then some "#ff3333"
  else if id = "ch-2711352" then some "#33ff66"
  else if id = "ch-2711351" then some "#3388ff"
  else none

/-- Color picked for the channel at forEach index `i`:
`RGB_COLORS[ch.id] || CHANNEL_PALETTE[i % CHANNEL_PALETTE.length]`.
The palette is never empty, so the `getD` default is unreachable. -/
def channelColorAt (ch : NodeData) (i : Nat) : String :=
  (RGB_COLORS ch.id).getD (CHANNEL_PALETTE.getD (i % CHANNEL_PALETTE.length) "#666666")

/-- The `channels.forEach((ch, i) => { map[ch.id] = ... })` loop, with the
forEach index threaded explicitly; later writes shadow earlier ones exactly
as object-key assignment does. -/
def channelColorLoop : Nat → (String → Option String) → List NodeData → (String → Option String)
  | _, m, [] => m
  | i, m, ch :: rest =>
      channelColorLoop (i + 1) (fun x => if x = ch.id then some (channelColorAt ch i) else m x) rest

/-- `this.channelColorMap`, keyed by channel id. -/
def channelColorMapOf (channels : List NodeData) : String → Option String :=
  channelColorLoop 0 (fun _ => none) channels

/-- One step of the `blockChannelMap` loop: `if (!this.blockChannelMap[tgt])
this.blockChannelMap[tgt] = src;` — the guard is JavaScript truthiness, so
an entry holding the empty string is overwritten. -/
def blockChannelStep (m : String → Option String) (e : RawEdge) : String → Option String :=
  if m e.target = none ∨ m e.target = some "" then
    fun x => if x = e.target then some e.source else m x
  else m

/-- `this.blockChannelMap`: block id to first (truthy) owning channel id. -/
def blockChannelMapOf (edges : List RawEdge) : String → Option String :=
  edges.foldl blockChannelStep (fun _ => none)

/-- One step of the `blockToChannelsMap` loop: initialise to `[]` on first
touch, then push the source unless already present. -/
def blockToChannelsStep (m : String → List String) (e : RawEdge) : String → List String :=
  if e.source ∈ m e.target then m
  else fun x => if x = e.target then m e.target ++ [e.source] else m x

/-- `this.blockToChannelsMap`: block id to all listed owning channel ids. -/
def blockToChannelsMapOf (edges : List RawEdge) : String → List String :=
  edges.foldl blockToChannelsStep (fun _ => [])

/-- One `adjacency[k].push(v)` step (`[]` initialisation folded in, since an
absent key reads as the empty list here). -/
def pushEntry (m : String → List String) (k v : String) : String → List String :=
  fun x => if x = k then m k ++ [v] else m x

/-- One edge of the adjacency-building loop: push the target onto the
source's list, then the source onto the target's list. -/
def adjStep (m : String → List String) (e : RawEdge) : String → List String :=
  pushEntry (pushEntry m e.source e.target) e.target e.source

/-- `this.adjacency`, built over all edges in edge order. -/
def adjacencyOf (edges : List RawEdge) : String → List String :=
  edges.foldl adjStep (fun _ => [])

/-- `blocks.forEach((b, i) => { map[b.id] = i })`, later duplicates win. -/
def indexMapLoop : Nat → (String → Option Nat) → List NodeData → (String → Option Nat)
  | _, m, [] => m
  | i, m, d :: rest =>
      indexMapLoop (i + 1) (fun x => if x = d.id then some i else m x) rest

/-- `this.blockIndexMap`. -/
def blockIndexMapOf (blocks : List NodeData) : String → Option Nat :=
  indexMapLoop 0 (fun _ => none) blocks

/-- `this.channelIndexMap`. -/
def channelIndexMapOf (channels : List NodeData) : String → Option Nat :=
  indexMapLoop 0 (fun _ => none) channels

/-- The block-color assignment loop:
`b.color = parentCh ? this.channelColorMap[parentCh] : '#666666'`.
A truthy owner with no channel-color entry leaves the color `undefined`
(modelled `none`). -/
def blockColorOf (nodes : List NodeData) (edges : List RawEdge) (blockId : String) :
    Option String :=
  match blockChannelMapOf edges blockId with
  | some s => if s = "" then some "#666666" else channelColorMapOf (channelsOf nodes) s
  | none => some "#666666"

/-- The successfully constructed graph model (derived maps are recomputed
from these lists by the functions above). -/
structure GraphModel where
  channels : List NodeData
  blocks : List NodeData
  edges : List RawEdge
deriving DecidableEq

/-- The `GraphData` constructor as a fallible loader.  Property reads on
`undefined` and `for...of` over `undefined` throw `TypeError`, in source
order: `raw.meta.searchIndex` first, then the node list access and loop,
then the edge loops. -/
def loadGraph (raw : RawInput) : Except JsError GraphModel :=
  match raw.meta with
  | none => .error .typeError
  | some _ =>
    match raw.elements with
    | none => .error .typeError
    | some els =>
      match els.nodes with
      | none => .error .typeError
      | some nodes =>
        match els.edges with
        | none => .error .typeError
        | some edges =>
          .ok { channels := channelsOf nodes, blocks := blocksOf nodes, edges := edges }

/-- Modelled from the spec, for stating claim C8 only: "the source of the
first edge targeting it, in edge order".  The code's own map is
`blockChannelMapOf`; the two coincide when no edge has an empty source id. -/
def specFirstOwner (edges : List RawEdge) (blockId : String) : Option String :=
  (edges.find? (fun e => e.target == blockId)).map RawEdge.source

/-- Claim C8 as stated: every block's color is the channel color of its
first-listed owning channel, or the default color when no channel owns it. -/
def specClaimC8 (nodes : List NodeData) (edges : List RawEdge) : Prop :=
  ∀ b ∈ blocksOf nodes,
    match specFirstOwner edges b.id with
    | some ch => ∃ c, channelColorMapOf (channelsOf nodes) ch = some c
        ∧ blockColorOf nodes edges b.id = some c
    | none => blockColorOf nodes edges b.id = some "#666666"

/-- The source-endpoint computation of `EdgeRenderer.updatePositions`: a
source id with no channel index falls back to the origin. -/
def edgeSourcePos (channels : List NodeData) (chanPos : Nat → ℚ × ℚ × ℚ) (e : RawEdge) :
    ℚ × ℚ × ℚ :=
  match channelIndexMapOf channels e.source with
  | some i => chanPos i
  | none => (0, 0, 0)

/-! ## Picking subsystem (`src/shaders/picking.vert`, `Raycaster.js`)

`picking.vert` encodes the per-instance pick id as a base-256 RGB byte
triple; `Raycaster.pick` reads the pixel back and decodes it.  Pick ids
below 2^24 are exactly representable through the float/byte pipeline, so
integer semantics is the faithful model. -/

/-- Encoding of a pick id into an RGB byte triple, from `picking.vert`:
`r = mod(id, 256)`, `g = mod(floor(id / 256), 256)`,
`b = mod(floor(id / 65536), 256)` (after the `/255` normalisation and
byte quantisation cancel each other). -/
def encodePickId (id : Nat) : Nat × Nat × Nat :=
  (id % 256, id / 256 % 256, id / 65536 % 256)

/-- Decoding step of `Raycaster.pick`: `id = r + g*256 + b*65536`;
`id = 0` means no hit (`-1`), otherwise the block index is `id - 1`. -/
def decodePick (r g b : Nat) : Int :=
  let id := r + g * 256 + b * 65536
  if 0 < id then (id : Int) - 1 else -1

/-- `NodeRenderer` assigns pick id `i + 1` to block index `i`
(`this.pickIdAttr[i] = i + 1; // 0 = no hit`). -/
def pickIdOf (i : Nat) : Nat := i + 1

/-! ## Instanced node store (`src/graph/NodeRenderer.js`)

The renderer owns flat `Float32Array` attribute buffers for blocks plus a
plain JavaScript array of channel meshes.  Buffer writes are modelled with
`FArr`; the channel-mesh array is a `List`, because indexing it out of
range yields `undefined` and dereferencing `.position` then throws. -/

/-- `FADED_OPACITY` from `src/constants.js`. -/
def FADED_OPACITY : ℚ := 0.06

/-- `EDGE_OPACITY` from `src/constants.js`. -/
def EDGE_OPACITY : ℚ := 0.07

/-- Write a list of consecutive values starting at `off` (used for
`Matrix4.toArray(array, offset)`). -/
def FArr.writeSlice : FArr → Nat → List ℚ → FArr
  | a, _, [] => a
  | a, off, v :: rest => (a.write off v).writeSlice (off + 1) rest

/-- `TypedArray.set(src)`: copy the source's contents over the front of the
target. -/
def FArr.copyFrom (a src : FArr) : FArr :=
  ⟨a.size, fun j => if j < src.size then src.data j else a.data j⟩

/-- Column-major translation matrix written by `setMatrixAt` after
`dummy.position.set(x, y, z); dummy.updateMatrix()`. -/
def translationMatrix (x y z : ℚ) : List ℚ :=
  [1, 0, 0, 0, 0, 1, 0, 0, 0, 0, 1, 0, x, y, z, 1]

/-- A channel mesh: the only state the embedded code paths touch is its
position. -/
structure Mesh3 where
  position : ℚ × ℚ × ℚ
deriving DecidableEq

structure NodeStore where
  blockCount : Nat
  colorAttr : FArr
  opacityAttr : FArr
  scaleAttr : FArr
  originalColors : FArr
  originalOpacities : FArr
  originalScales : FArr
  positions : FArr
  matrixArr : FArr
  pickMatrixArr : FArr
  channelMeshes : List Mesh3

/-- Buffer sizes as allocated by the `NodeRenderer` constructor. -/
def NodeStore.WF (ns : NodeStore) : Prop :=
  ns.colorAttr.size = 3 * ns.blockCount ∧ ns.opacityAttr.size = ns.blockCount ∧
  ns.scaleAttr.size = ns.blockCount ∧ ns.originalColors.size = 3 * ns.blockCount ∧
  ns.originalOpacities.size = ns.blockCount ∧ ns.originalScales.size = ns.blockCount ∧
  ns.positions.size = 3 * ns.blockCount ∧ ns.matrixArr.size = 16 * ns.blockCount ∧
  ns.pickMatrixArr.size = 16 * ns.blockCount

instance (ns : NodeStore) : Decidable ns.WF := by
  unfold NodeStore.WF
  infer_instance

/-- `setBlockPosition(index, x, y, z)`: three position-buffer writes plus
`setMatrixAt` on the render and picking meshes (each a 16-float write into
the instance-matrix buffer).  All are typed-array writes, silent when the
index is out of range. -/
def setBlockPosition (ns : NodeStore) (i : Nat) (x y z : ℚ) : NodeStore :=
  { ns with
    positions := ((ns.positions.write (i * 3) x).write (i * 3 + 1) y).write (i * 3 + 2) z,
    matrixArr := ns.matrixArr.writeSlice (i * 16) (translationMatrix x y z),
    pickMatrixArr := ns.pickMatrixArr.writeSlice (i * 16) (translationMatrix x y z) }

/-- `setChannelPosition(index, x, y, z)`:
`this.channelMeshes[index].position.set(x, y, z)` — indexing past the end
of the mesh array gives `undefined` and the `.position` access throws. -/
def setChannelPosition (ns : NodeStore) (i : Nat) (x y z : ℚ) : Except JsError NodeStore :=
  match ns.channelMeshes[i]? with
  | none => .error .typeError
  | some _ => .ok { ns with channelMeshes := ns.channelMeshes.set i ⟨(x, y, z)⟩ }

/-- `setBlockColor(index, r, g, b)`. -/
def setBlockColor (ns : NodeStore) (i : Nat) (r g b : ℚ) : NodeStore :=
  { ns with
    colorAttr := ((ns.colorAttr.write (i * 3) r).write (i * 3 + 1) g).write (i * 3 + 2) b }

/-- `setBlockOpacity(index, opacity)`. -/
def setBlockOpacity (ns : NodeStore) (i : Nat) (v : ℚ) : NodeStore :=
  { ns with opacityAttr := ns.opacityAttr.write i v }

/-- `setBlockScale(index, scale)`. -/
def setBlockScale (ns : NodeStore) (i : Nat) (v : ℚ) : NodeStore :=
  { ns with scaleAttr := ns.scaleAttr.write i v }

/-- `commitAttributes` / `commitPositions` only raise `needsUpdate` flags on
the GPU side; the buffer contents are unchanged. -/
def commitAttributes (ns : NodeStore) : NodeStore := ns

/-- `resetAttributes()`: `attr.set(originals)` for color, opacity and
scale, then commit. -/
def resetAttributes (ns : NodeStore) : NodeStore :=
  commitAttributes
    { ns with
      colorAttr := ns.colorAttr.copyFrom ns.originalColors,
      opacityAttr := ns.opacityAttr.copyFrom ns.originalOpacities,
      scaleAttr := ns.scaleAttr.copyFrom ns.originalScales }

/-- One iteration of the `fadeAllExcept` loop. -/
def fadeStep (visible : Finset Nat) (s : NodeStore) (i : Nat) : NodeStore :=
  if i ∈ visible then
    { s with
      opacityAttr := s.opacityAttr.write i (s.originalOpacities.data i),
      scaleAttr := s.scaleAttr.write i (s.originalScales.data i) }
  else
    { s with
      opacityAttr := s.opacityAttr.write i FADED_OPACITY,
      scaleAttr := s.scaleAttr.write i (0.5 : ℚ) }

/-- `fadeAllExcept(visibleIndices)`: for every block index restore the
original opacity/scale when visible, else write the faded values; then
commit. -/
def fadeAllExcept (visible : Finset Nat) (ns : NodeStore) : NodeStore :=
  commitAttributes ((List.range ns.blockCount).foldl (fadeStep visible) ns)

/-! ## Edge store (`src/graph/EdgeRenderer.js`) -/

/-- `GraphData.getChannelColor`: `this.channelColorMap[channelId] ||
'#666666'` (JavaScript truthiness: `undefined` and `""` fall back). -/
def getChannelColor (m : String → Option String) (id : String) : String :=
  match m id with
  | some s => if s = "" then "#666666" else s
  | none => "#666666"

/-- One hexadecimal digit, as `parseInt` radix 16 accepts it. -/
def hexDigit (c : Char) : Option Nat :=
  if '0' ≤ c ∧ c ≤ '9' then some (c.toNat - '0'.toNat)
  else if 'a' ≤ c ∧ c ≤ 'f' then some (c.toNat - 'a'.toNat + 10)
  else if 'A' ≤ c ∧ c ≤ 'F' then some (c.toNat - 'A'.toNat + 10)
  else none

/-- `parseInt(color.slice(i, i+2), 16)`: parse up to two hex digits
starting at character `i`, with JavaScript's maximal-prefix behaviour;
`none` is NaN. -/
def hexPairAt (s : String) (i : Nat) : Option Nat :=
  match hexDigit (s.toList.getD i 'z'), hexDigit (s.toList.getD (i + 1) 'z') with
  | some h, some l => some (16 * h + l)
  | some h, none => some h
  | none, _ => none

/-- One color component `parseInt(color.slice(off, off+2), 16) / 255`,
taking 0 for NaN (unreachable: every color string the loaded maps produce
is a valid `#rrggbb` literal). -/
def colorComp (color : String) (off : Nat) : ℚ :=
  ((hexPairAt color off).getD 0 : ℚ) / 255

/-- `arr[k] *= 0.1`. -/
def scaleSlot (a : FArr) (k : Nat) : FArr := a.write k (a.data k * (0.1 : ℚ))

/-- Dim the six color floats of edge slot `base = i*6` by 0.1 each. -/
def scaleSlot6 (a : FArr) (base : Nat) : FArr :=
  scaleSlot (scaleSlot (scaleSlot (scaleSlot (scaleSlot (scaleSlot a base)
    (base + 1)) (base + 2)) (base + 3)) (base + 4)) (base + 5)

/-- Write one color to both vertices of edge slot `base = i*6`: six
consecutive writes `base .. base+5` of the components `c0 c1 c2 c0 c1 c2`. -/
def setSlot6 (a : FArr) (base : Nat) (c0 c1 c2 : ℚ) : FArr :=
  a.writeSlice base [c0, c1, c2, c0, c1, c2]

@[ext]
structure EdgeStore where
  edgeCount : Nat
  edges : List RawEdge
  positionArray : FArr
  colorArray : FArr
  blockIndex : String → Option Nat
  channelColor : String → Option String

/-- Sizes and counts as allocated by the `EdgeRenderer` constructor. -/
def EdgeStore.WF (s : EdgeStore) : Prop :=
  s.edgeCount = s.edges.length ∧ s.colorArray.size = 6 * s.edgeCount ∧
  s.positionArray.size = 6 * s.edgeCount

/-- The visibility test of the `fadeEdgesExcept` loop:
`blIdx !== undefined && visibleBlockIndices.has(blIdx)`. -/
def edgeVisible (visible : Finset Nat) (s : EdgeStore) (i : Nat) : Bool :=
  match s.blockIndex (s.edges.getD i ⟨"", ""⟩).target with
  | some b => decide (b ∈ visible)
  | none => false

/-- One iteration of the `fadeEdgesExcept` loop: an edge whose target block
index is missing or not in the visible set has all six color floats
multiplied by 0.1 in place. -/
def fadeEdgeStep (visible : Finset Nat) (s : EdgeStore) (i : Nat) : EdgeStore :=
  if edgeVisible visible s i then s
  else { s with colorArray := scaleSlot6 s.colorArray (i * 6) }

/-- `fadeEdgesExcept(visibleBlockIndices)`. -/
def fadeEdgesExcept (visible : Finset Nat) (s : EdgeStore) : EdgeStore :=
  (List.range s.edgeCount).foldl (fadeEdgeStep visible) s

/-- One iteration of the `resetColors` loop: recompute the edge color from
the channel color map and write it to both vertices. -/
def resetEdgeStep (s : EdgeStore) (i : Nat) : EdgeStore :=
  let edge := s.edges.getD i ⟨"", ""⟩
  let color := getChannelColor s.channelColor edge.source
  { s with
    colorArray :=
      setSlot6 s.colorArray (i * 6) (colorComp color 1) (colorComp color 3) (colorComp color 5) }

/-- `resetColors()`. -/
def resetColors (s : EdgeStore) : EdgeStore :=
  (List.range s.edgeCount).foldl resetEdgeStep s

/-- The recomputed base color float stored at slot `i*6 + k` by
`resetColors` (component r, g, b cycling with `k % 3`). -/
def edgeBaseComp (s : EdgeStore) (i k : Nat) : ℚ :=
  colorComp (getChannelColor s.channelColor ((s.edges.getD i ⟨"", ""⟩).source)) (2 * (k % 3) + 1)

/-- `highlightEdges(edgeIndices, color)`: write the override color into the
six floats of each listed edge slot; out-of-range indices write silently
past the end of the typed array (no-ops). -/
def highlightEdges (s : EdgeStore) (idxs : List Nat) (c : ℚ × ℚ × ℚ) : EdgeStore :=
  { s with
    colorArray := idxs.foldl (fun a idx => setSlot6 a (idx * 6) c.1 c.2.1 c.2.2) s.colorArray }

/-- A small concrete store used as the concrete input of several
counterexamples and witnesses: one block whose current color (1) differs
from its original color (0), and a single channel mesh. -/
def demoStore : NodeStore :=
  { blockCount := 1,
    colorAttr := ⟨3, fun _ => 1⟩,
    opacityAttr := ⟨1, fun _ => 1⟩,
    scaleAttr := ⟨1, fun _ => 1⟩,
    originalColors := ⟨3, fun _ => 0⟩,
    originalOpacities := ⟨1, fun _ => 0.5⟩,
    originalScales := ⟨1, fun _ => 1⟩,
    positions := ⟨3, fun _ => 0⟩,
    matrixArr := ⟨16, fun _ => 0⟩,
    pickMatrixArr := ⟨16, fun _ => 0⟩,
    channelMeshes := [⟨(0, 0, 0)⟩] }

/-- A small concrete edge store: one edge from channel `"c"` to block
`"b"` at block index 0, with a valid red channel color. -/
def demoEdgeStore : EdgeStore :=
  { edgeCount := 1,
    edges := [⟨"c", "b"⟩],
    positionArray := ⟨6, fun _ => 0⟩,
    colorArray := ⟨6, fun _ => 1⟩,
    blockIndex := fun x => if x = "b" then some 0 else none,
    channelColor := fun x => if x = "c" then some "#ff0000" else none }

instance (s : EdgeStore) : Decidable s.WF := by
  unfold EdgeStore.WF
  infer_instance

/-! ## Layout engine and frame scheduler (`src/layout/LayoutEngine.js`)

`animateTo` captures the current node and channel positions, cancels any
pending animation-frame registration, and registers a fresh per-frame step
callback.  The browser's `requestAnimationFrame` registry is modelled as a
list of `(handle, animation-data)` pairs with fresh strictly increasing
handles starting at 1 (browser handles are nonzero, so `this._animCallback`
is truthy exactly when it is set); `fireFrame` runs the callbacks
registered before the frame once each — re-registrations run in the next
frame — and advances the clock.  `commitPositions`/`updatePositions` only
flag GPU uploads and recompute derived edge endpoints, so they do not
appear in this state. -/

abbrev V3 := ℚ × ℚ × ℚ

/-- The layout passed to `animateTo`: block positions by index, channel
positions by channel id (entries may be missing; the step lerps an element
only when both its start and its target exist). -/
structure Layout where
  blockPositions : Nat → Option V3
  channelPositions : String → Option V3

/-- The graph shape the engine iterates over (`graphData.blocks.length`,
`graphData.channels`). -/
structure GraphShape where
  blockCount : Nat
  channelIds : List String

/-- The state captured by one `animateTo` call and closed over by its
`step` callback. -/
structure AnimData where
  startBlock : List V3
  startChannel : List V3
  target : Layout
  startTime : ℚ
  duration : ℚ

structure EngineState where
  animating : Bool
  animCallback : Option Nat

structure World where
  now : ℚ
  blockPos : Nat → V3
  chanPos : Nat → V3
  engine : EngineState
  raf : List (Nat × AnimData)
  nextHandle : Nat

/-- `easeOutCubic = (t) => 1 - Math.pow(1 - t, 3)`. -/
def easeOutCubic (t : ℚ) : ℚ := 1 - (1 - t) ^ 3

/-- `s + (e - s) * ease`, componentwise. -/
def lerp3 (s e : V3) (ease : ℚ) : V3 :=
  (s.1 + (e.1 - s.1) * ease, s.2.1 + (e.2.1 - s.2.1) * ease, s.2.2 + (e.2.2 - s.2.2) * ease)

/-- The animation record captured by `animateTo`: current positions as the
start state, the call-time clock as the start time. -/
def animOf (g : GraphShape) (w : World) (layout : Layout) (duration : ℚ) : AnimData :=
  { startBlock := (List.range g.blockCount).map w.blockPos,
    startChannel := (List.range g.channelIds.length).map w.chanPos,
    target := layout,
    startTime := w.now,
    duration := duration }

/-- `LayoutEngine.animateTo(layout, duration, onComplete)` up to the first
`requestAnimationFrame`: cancel the pending registration if one is active,
capture the current positions as the start state, and register the new
step. -/
def animateTo (g : GraphShape) (w : World) (layout : Layout) (duration : ℚ) : World :=
  let raf1 :=
    if w.engine.animating = true ∧ w.engine.animCallback.isSome = true then
      w.raf.filter (fun p => decide (some p.1 ≠ w.engine.animCallback))
    else w.raf
  { w with
    raf := raf1 ++ [(w.nextHandle, animOf g w layout duration)],
    engine := { animating := true, animCallback := some w.nextHandle },
    nextHandle := w.nextHandle + 1 }

/-- `let t = (performance.now() - startTime) / duration; if (t > 1) t = 1`. -/
def stepT (w : World) (anim : AnimData) : ℚ :=
  let t0 := (w.now - anim.startTime) / anim.duration
  if t0 > 1 then 1 else t0

/-- The block-position loop of the `step` closure: lerp when the captured
start and the target both exist (`if (s && e)`). -/
def stepBlockPos (g : GraphShape) (w : World) (anim : AnimData) : Nat → V3 := fun i =>
  if i < g.blockCount then
    match anim.startBlock[i]?, anim.target.blockPositions i with
    | some s, some e => lerp3 s e (easeOutCubic (stepT w anim))
    | _, _ => w.blockPos i
  else w.blockPos i

/-- The channel-position loop of the `step` closure (targets are keyed by
channel id). -/
def stepChanPos (g : GraphShape) (w : World) (anim : AnimData) : Nat → V3 := fun i =>
  if i < g.channelIds.length then
    match anim.startChannel[i]?, anim.target.channelPositions (g.channelIds.getD i "") with
    | some s, some e => lerp3 s e (easeOutCubic (stepT w anim))
    | _, _ => w.chanPos i
  else w.chanPos i

/-- One invocation of the `step` closure: clamp `t`, ease, lerp every block
and channel position whose start and target both exist, then either
re-register for the next frame (`t < 1`) or finish (`_animating = false`;
`onComplete` is outside this state). -/
def runStep (g : GraphShape) (w : World) (anim : AnimData) : World :=
  if stepT w anim < 1 then
    { w with
      blockPos := stepBlockPos g w anim, chanPos := stepChanPos g w anim,
      raf := w.raf ++ [(w.nextHandle, anim)],
      engine := { w.engine with animCallback := some w.nextHandle },
      nextHandle := w.nextHandle + 1 }
  else
    { w with
      blockPos := stepBlockPos g w anim, chanPos := stepChanPos g w anim,
      engine := { w.engine with animating := false } }

/-- One display refresh: advance the clock by `dt` and run every callback
that was registered before this frame. -/
def fireFrame (g : GraphShape) (w : World) (dt : ℚ) : World :=
  let pending := w.raf
  let w1 := { w with now := w.now + dt, raf := [] }
  pending.foldl (fun acc p => runStep g acc p.2) w1

/-- The engine right after construction: not animating, no callback, no
pending frame. -/
def initWorld (p0 c0 : Nat → V3) (t0 : ℚ) : World :=
  { now := t0, blockPos := p0, chanPos := c0,
    engine := { animating := false, animCallback := none },
    raf := [], nextHandle := 1 }

/-- Worlds reachable from construction by `animateTo` calls and display
frames. -/
inductive ReachableW (g : GraphShape) : World → Prop
  | init (p0 c0 : Nat → V3) (t0 : ℚ) : ReachableW g (initWorld p0 c0 t0)
  | animate (w : World) (layout : Layout) (d : ℚ) :
      ReachableW g w → ReachableW g (animateTo g w layout d)
  | frame (w : World) (dt : ℚ) : ReachableW g w → ReachableW g (fireFrame g w dt)

/-- Scheduler invariant: at most one pending registration, and a pending
registration is exactly the engine's recorded callback while animating;
handles are below the fresh-handle counter. -/
def WInv (w : World) : Prop :=
  w.raf.length ≤ 1
  ∧ (∀ p ∈ w.raf, w.engine.animCallback = some p.1 ∧ w.engine.animating = true
      ∧ p.1 < w.nextHandle)
  ∧ (w.engine.animating = true → w.raf ≠ [])
  ∧ (∀ h, w.engine.animCallback = some h → h < w.nextHandle)

/-! ## Breadth-first shortest path (`GraphData.bfsPath`)

`bfsPath` keeps a queue of whole paths, dequeues from the front, returns
`path ++ [endId]` the moment `endId` shows up among the neighbors of the
dequeued path's last node, and otherwise enqueues one extension per
not-yet-visited neighbor, marking it visited immediately.  The `visited`
set is a JavaScript `Set`, modelled as a `Finset`.  The `while` loop
terminates because every enqueue marks a fresh node visited; it is modelled
with a fuel counter large enough that the fuel never runs out (proved via
the `bfsMeasure` bound). -/

/-- The body of `for (const n of neighbors)`: return on `endId`, otherwise
enqueue unvisited neighbors (appended to the queue in scan order). -/
def scanNeighbors (endId : String) (path : List String) :
    List String → Finset String → List (List String) →
      Sum (List String) (Finset String × List (List String))
  | [], visited, acc => Sum.inr (visited, acc)
  | n :: ns, visited, acc =>
      if n = endId then Sum.inl (path ++ [n])
      else if n ∈ visited then scanNeighbors endId path ns visited acc
      else scanNeighbors endId path ns (insert n visited) (acc ++ [path ++ [n]])

/-- The not-yet-visited neighbors in first-occurrence scan order (the nodes
the scan enqueues, in order). -/
def newNodesOf (V : Finset String) : List String → List String
  | [] => []
  | n :: ns => if n ∈ V then newNodesOf V ns else n :: newNodesOf (insert n V) ns

/-- The `while (queue.length > 0)` loop.  `path[path.length - 1]` is
`path.getLast?`; a hypothetical empty path reads `adjacency[undefined]`,
which is `undefined`, so `|| []` makes its neighbor list empty. -/
def bfsLoop (adj : String → List String) (endId : String) :
    Nat → Finset String → List (List String) → List String
  | 0, _, _ => []
  | _ + 1, _, [] => []
  | fuel + 1, visited, path :: rest =>
      let neighbors := match path.getLast? with
        | some c => adj c
        | none => []
      match scanNeighbors endId path neighbors visited [] with
      | Sum.inl found => found
      | Sum.inr (visited', newPaths) => bfsLoop adj endId fuel visited' (rest ++ newPaths)

/-- All node ids an edge list can ever put into adjacency lists. -/
def edgeNodes (edges : List RawEdge) : List String :=
  edges.flatMap (fun e => [e.source, e.target])

/-- `GraphData.bfsPath(startId, endId)`, over the adjacency built at load
from the membership edges.  The fuel is an upper bound on the number of
loop iterations, proved never to run out. -/
def bfsPath (edges : List RawEdge) (startId endId : String) : List String :=
  if startId = endId then [startId]
  else
    bfsLoop (adjacencyOf edges) endId (2 * (edgeNodes edges).length + 2)
      {startId} [[startId]]

/-- A walk in the adjacency graph: starts at `x`, ends at `y`, every
consecutive pair is an adjacency step. -/
def IsWalk (adj : String → List String) (x y : String) (p : List String) : Prop :=
  p.head? = some x ∧ p.getLast? = some y ∧ p.Chain' (fun u v => v ∈ adj u)

/-- Lexicographic order on two step sequences leaving context node `u`:
compare the first differing step by its enumeration position in the
adjacency list (insertion order of the membership edges). -/
def LexLt (adj : String → List String) : String → List String → List String → Prop
  | u, a :: as, b :: bs =>
      (a = b ∧ LexLt adj a as bs) ∨ (a ≠ b ∧ (adj u).indexOf a < (adj u).indexOf b)
  | _, _, _ => False

/-- BFS's priority order on walks from `x`: fewer hops first, ties broken
by adjacency-list enumeration order. -/
def WalkLt (adj : String → List String) (x : String) (p q : List String) : Prop :=
  p.length < q.length ∨ (p.length = q.length ∧ LexLt adj x p q)

/-- The (unique) `WalkLt`-least walk from `x` to `y`. -/
def IsMinWalk (adj : String → List String) (x y : String) (p : List String) : Prop :=
  IsWalk adj x y p ∧ ∀ q, IsWalk adj x y q → p = q ∨ WalkLt adj x p q

/-- Loop invariant of `bfsLoop`: the start is visited and the end is not;
every queued path is the least walk to its own (visited, non-end) last
node; the queue is sorted by `WalkLt` and later entries precede any
extension of earlier ones; every visited node either still has its path in
the queue or has been fully expanded (all neighbors visited, and it is not
adjacent to the end node, else the loop would have returned). -/
structure BfsInv (adj : String → List String) (start endId : String)
    (V : Finset String) (q : List (List String)) : Prop where
  start_mem : start ∈ V
  end_not_mem : endId ∉ V
  queue_min : ∀ p ∈ q, ∃ l, p.getLast? = some l ∧ l ∈ V ∧ l ≠ endId
      ∧ IsMinWalk adj start l p
  sorted : List.Pairwise
      (fun p r => WalkLt adj start p r ∧ ∀ n, WalkLt adj start r (p ++ [n])) q
  expanded : ∀ v ∈ V, (∃ p ∈ q, p.getLast? = some v)
      ∨ ((∀ n ∈ adj v, n ∈ V) ∧ endId ∉ adj v)

/-- Termination measure of the loop: unvisited candidate nodes count double
so that enqueues (which add a queue entry but consume a fresh node) still
shrink it. -/
def bfsMeasure (U : List String) (V : Finset String) (q : List (List String)) : Nat :=
  2 * (U.toFinset \ V).card + q.length

/-! # Theorems -/

/-! ## Typed-array lemmas -/

theorem FArr.write_oob (a : FArr) (i : Nat) (v : ℚ) (h : ¬ i < a.size) :
    a.write i v = a := by
  simp [write, h]

theorem FArr.read_write_of_ne (a : FArr) (i j : Nat) (v : ℚ) (h : j ≠ i) :
    (a.write i v).read j = a.read j := by
  unfold write read
  by_cases hi : i < a.size <;> simp [hi, h]

theorem FArr.size_write (a : FArr) (i : Nat) (v : ℚ) : (a.write i v).size = a.size := by
  unfold write; by_cases hi : i < a.size <;> simp [hi]

theorem FArr.read_write_self (a : FArr) (i : Nat) (v : ℚ) (h : i < a.size) :
    (a.write i v).read i = some v := by
  simp [write, read, h]

theorem FArr.data_write (a : FArr) (i : Nat) (v : ℚ) (j : Nat) :
    (a.write i v).data j = if j = i ∧ i < a.size then v else a.data j := by
  unfold write
  by_cases hi : i < a.size
  · by_cases hj : j = i <;> simp [hi, hj]
  · simp [hi]

theorem FArr.size_writeSlice (a : FArr) (off : Nat) (vs : List ℚ) :
    (a.writeSlice off vs).size = a.size := by
  induction vs generalizing a off with
  | nil => rfl
  | cons v rest ih =>
    unfold writeSlice
    rw [ih, size_write]

theorem FArr.writeSlice_oob (a : FArr) (off : Nat) (vs : List ℚ) (h : a.size ≤ off) :
    a.writeSlice off vs = a := by
  induction vs generalizing off with
  | nil => rfl
  | cons v rest ih =>
    unfold writeSlice
    rw [write_oob _ _ _ (by omega), ih _ (by omega)]

theorem size_scaleSlot6 (a : FArr) (base : Nat) : (scaleSlot6 a base).size = a.size := by
  simp [scaleSlot6, scaleSlot, FArr.size_write]

theorem data_scaleSlot (b : FArr) (k j : Nat) :
    (scaleSlot b k).data j
      = if j = k ∧ k < b.size then b.data k * (0.1 : ℚ) else b.data j := by
  rw [scaleSlot, FArr.data_write]

theorem data_scaleSlot_ne (b : FArr) (k j : Nat) (h : j ≠ k) :
    (scaleSlot b k).data j = b.data j := by
  rw [data_scaleSlot, if_neg (fun hc => h hc.1)]

theorem size_scaleSlot (b : FArr) (k : Nat) : (scaleSlot b k).size = b.size :=
  FArr.size_write b k _

theorem FArr.data_writeSlice (a : FArr) (off : Nat) (vs : List ℚ) (j : Nat) :
    (a.writeSlice off vs).data j
      = if off ≤ j ∧ j < off + vs.length ∧ j < a.size then vs.getD (j - off) 0
        else a.data j := by
  induction vs generalizing a off with
  | nil =>
    rw [if_neg (by simp only [List.length_nil]; omega)]
    rfl
  | cons v rest ih =>
    unfold writeSlice
    rw [ih, size_write]
    by_cases hj : j = off
    · subst hj
      rw [if_neg (by omega), data_write]
      by_cases hs : j < a.size
      · rw [if_pos ⟨rfl, hs⟩, if_pos ⟨le_refl j, by simp only [List.length_cons]; omega, hs⟩]
        simp
      · rw [if_neg (fun hc => hs hc.2), if_neg (fun hc => hs hc.2.2)]
    · by_cases hwin : off + 1 ≤ j ∧ j < off + 1 + rest.length ∧ j < a.size
      · rw [if_pos hwin,
          if_pos ⟨by omega, by simp only [List.length_cons]; omega, hwin.2.2⟩]
        have hsub : j - off = (j - (off + 1)) + 1 := by omega
        rw [hsub]
        simp
      · rw [if_neg hwin, data_write, if_neg (fun hc => hj hc.1),
          if_neg (fun hc =>
            hwin ⟨by omega, by simp only [List.length_cons] at hc; omega, hc.2.2⟩)]

theorem data_scaleSlot6 (a : FArr) (base j : Nat) :
    (scaleSlot6 a base).data j
      = if base ≤ j ∧ j < base + 6 ∧ j < a.size then a.data j * (0.1 : ℚ)
        else a.data j := by
  unfold scaleSlot6
  by_cases hin : base ≤ j ∧ j < base + 6
  · have hcase : j = base ∨ j = base + 1 ∨ j = base + 2 ∨ j = base + 3 ∨ j = base + 4
        ∨ j = base + 5 := by omega
    by_cases hsz : j < a.size
    · rw [if_pos ⟨hin.1, hin.2, hsz⟩]
      rcases hcase with rfl | rfl | rfl | rfl | rfl | rfl
      · rw [data_scaleSlot_ne _ _ _ (by omega), data_scaleSlot_ne _ _ _ (by omega),
          data_scaleSlot_ne _ _ _ (by omega), data_scaleSlot_ne _ _ _ (by omega),
          data_scaleSlot_ne _ _ _ (by omega), data_scaleSlot, if_pos (by simp [hsz])]
      · rw [data_scaleSlot_ne _ _ _ (by omega), data_scaleSlot_ne _ _ _ (by omega),
          data_scaleSlot_ne _ _ _ (by omega), data_scaleSlot_ne _ _ _ (by omega),
          data_scaleSlot]
        simp only [size_scaleSlot]
        rw [if_pos (by simp [hsz]), data_scaleSlot_ne _ _ _ (by omega)]
      · rw [data_scaleSlot_ne _ _ _ (by omega), data_scaleSlot_ne _ _ _ (by omega),
          data_scaleSlot_ne _ _ _ (by omega), data_scaleSlot]
        simp only [size_scaleSlot]
        rw [if_pos (by simp [hsz]), data_scaleSlot_ne _ _ _ (by omega),
          data_scaleSlot_ne _ _ _ (by omega)]
      · rw [data_scaleSlot_ne _ _ _ (by omega), data_scaleSlot_ne _ _ _ (by omega),
          data_scaleSlot]
        simp only [size_scaleSlot]
        rw [if_pos (by simp [hsz]), data_scaleSlot_ne _ _ _ (by omega),
          data_scaleSlot_ne _ _ _ (by omega), data_scaleSlot_ne _ _ _ (by omega)]
      · rw [data_scaleSlot_ne _ _ _ (by omega), data_scaleSlot]
        simp only [size_scaleSlot]
        rw [if_pos (by simp [hsz]), data_scaleSlot_ne _ _ _ (by omega),
          data_scaleSlot_ne _ _ _ (by omega), data_scaleSlot_ne _ _ _ (by omega),
          data_scaleSlot_ne _ _ _ (by omega)]
      · rw [data_scaleSlot]
        simp only [size_scaleSlot]
        rw [if_pos (by simp [hsz]), data_scaleSlot_ne _ _ _ (by omega),
          data_scaleSlot_ne _ _ _ (by omega), data_scaleSlot_ne _ _ _ (by omega),
          data_scaleSlot_ne _ _ _ (by omega), data_scaleSlot_ne _ _ _ (by omega)]
    · rw [if_neg (fun hc => hsz hc.2.2)]
      rcases hcase with rfl | rfl | rfl | rfl | rfl | rfl
      · rw [data_scaleSlot_ne _ _ _ (by omega), data_scaleSlot_ne _ _ _ (by omega),
          data_scaleSlot_ne _ _ _ (by omega), data_scaleSlot_ne _ _ _ (by omega),
          data_scaleSlot_ne _ _ _ (by omega), data_scaleSlot,
          if_neg (fun hc => hsz hc.2)]
      · rw [data_scaleSlot_ne _ _ _ (by omega), data_scaleSlot_ne _ _ _ (by omega),
          data_scaleSlot_ne _ _ _ (by omega), data_scaleSlot_ne _ _ _ (by omega),
          data_scaleSlot]
        simp only [size_scaleSlot]
        rw [if_neg (fun hc => hsz hc.2), data_scaleSlot_ne _ _ _ (by omega)]
      · rw [data_scaleSlot_ne _ _ _ (by omega), data_scaleSlot_ne _ _ _ (by omega),
          data_scaleSlot_ne _ _ _ (by omega), data_scaleSlot]
        simp only [size_scaleSlot]
        rw [if_neg (fun hc => hsz hc.2), data_scaleSlot_ne _ _ _ (by omega),
          data_scaleSlot_ne _ _ _ (by omega)]
      · rw [data_scaleSlot_ne _ _ _ (by omega), data_scaleSlot_ne _ _ _ (by omega),
          data_scaleSlot]
        simp only [size_scaleSlot]
        rw [if_neg (fun hc => hsz hc.2), data_scaleSlot_ne _ _ _ (by omega),
          data_scaleSlot_ne _ _ _ (by omega), data_scaleSlot_ne _ _ _ (by omega)]
      · rw [data_scaleSlot_ne _ _ _ (by omega), data_scaleSlot]
        simp only [size_scaleSlot]
        rw [if_neg (fun hc => hsz hc.2), data_scaleSlot_ne _ _ _ (by omega),
          data_scaleSlot_ne _ _ _ (by omega), data_scaleSlot_ne _ _ _ (by omega),
          data_scaleSlot_ne _ _ _ (by omega)]
      · rw [data_scaleSlot]
        simp only [size_scaleSlot]
        rw [if_neg (fun hc => hsz hc.2), data_scaleSlot_ne _ _ _ (by omega),
          data_scaleSlot_ne _ _ _ (by omega), data_scaleSlot_ne _ _ _ (by omega),
          data_scaleSlot_ne _ _ _ (by omega), data_scaleSlot_ne _ _ _ (by omega)]
  · rw [if_neg (fun hc => hin ⟨hc.1, hc.2.1⟩)]
    rw [data_scaleSlot_ne _ _ _ (by omega), data_scaleSlot_ne _ _ _ (by omega),
        data_scaleSlot_ne _ _ _ (by omega), data_scaleSlot_ne _ _ _ (by omega),
        data_scaleSlot_ne _ _ _ (by omega), data_scaleSlot_ne _ _ _ (by omega)]

theorem size_setSlot6 (a : FArr) (base : Nat) (c0 c1 c2 : ℚ) :
    (setSlot6 a base c0 c1 c2).size = a.size :=
  FArr.size_writeSlice a base _

theorem data_setSlot6 (a : FArr) (base : Nat) (c0 c1 c2 : ℚ) (j : Nat) :
    (setSlot6 a base c0 c1 c2).data j
      = if base ≤ j ∧ j < base + 6 ∧ j < a.size
        then [c0, c1, c2, c0, c1, c2].getD (j - base) 0
        else a.data j := by
  unfold setSlot6
  rw [FArr.data_writeSlice]
  rfl

/-! ## Node-store fade lemmas and claim C6 -/

theorem fadeStep_colorAttr (v : Finset Nat) (s : NodeStore) (i : Nat) :
    (fadeStep v s i).colorAttr = s.colorAttr := by
  unfold fadeStep
  split <;> rfl

theorem fadeStep_originalOpacities (v : Finset Nat) (s : NodeStore) (i : Nat) :
    (fadeStep v s i).originalOpacities = s.originalOpacities := by
  unfold fadeStep
  split <;> rfl

theorem fadeStep_originalScales (v : Finset Nat) (s : NodeStore) (i : Nat) :
    (fadeStep v s i).originalScales = s.originalScales := by
  unfold fadeStep
  split <;> rfl

theorem fadeStep_originalColors (v : Finset Nat) (s : NodeStore) (i : Nat) :
    (fadeStep v s i).originalColors = s.originalColors := by
  unfold fadeStep
  split <;> rfl

theorem fadeStep_blockCount (v : Finset Nat) (s : NodeStore) (i : Nat) :
    (fadeStep v s i).blockCount = s.blockCount := by
  unfold fadeStep
  split <;> rfl

theorem fadeStep_opacity_size (v : Finset Nat) (s : NodeStore) (i : Nat) :
    (fadeStep v s i).opacityAttr.size = s.opacityAttr.size := by
  unfold fadeStep
  split <;> simp [FArr.size_write]

theorem fadeStep_scale_size (v : Finset Nat) (s : NodeStore) (i : Nat) :
    (fadeStep v s i).scaleAttr.size = s.scaleAttr.size := by
  unfold fadeStep
  split <;> simp [FArr.size_write]

theorem fadeStep_opacity_data (v : Finset Nat) (s : NodeStore) (i j : Nat) :
    (fadeStep v s i).opacityAttr.data j
      = if j = i ∧ i < s.opacityAttr.size
        then (if i ∈ v then s.originalOpacities.data i else FADED_OPACITY)
        else s.opacityAttr.data j := by
  unfold fadeStep
  by_cases hv : i ∈ v
  · rw [if_pos hv]
    show (s.opacityAttr.write i (s.originalOpacities.data i)).data j = _
    rw [FArr.data_write, if_pos hv]
  · rw [if_neg hv]
    show (s.opacityAttr.write i FADED_OPACITY).data j = _
    rw [FArr.data_write, if_neg hv]

theorem fadeStep_scale_data (v : Finset Nat) (s : NodeStore) (i j : Nat) :
    (fadeStep v s i).scaleAttr.data j
      = if j = i ∧ i < s.scaleAttr.size
        then (if i ∈ v then s.originalScales.data i else (0.5 : ℚ))
        else s.scaleAttr.data j := by
  unfold fadeStep
  by_cases hv : i ∈ v
  · rw [if_pos hv]
    show (s.scaleAttr.write i (s.originalScales.data i)).data j = _
    rw [FArr.data_write, if_pos hv]
  · rw [if_neg hv]
    show (s.scaleAttr.write i (0.5 : ℚ)).data j = _
    rw [FArr.data_write, if_neg hv]

theorem fade_loop_fields (v : Finset Nat) (L : List Nat) (s : NodeStore) :
    (L.foldl (fadeStep v) s).colorAttr = s.colorAttr
    ∧ (L.foldl (fadeStep v) s).originalOpacities = s.originalOpacities
    ∧ (L.foldl (fadeStep v) s).originalScales = s.originalScales
    ∧ (L.foldl (fadeStep v) s).originalColors = s.originalColors
    ∧ (L.foldl (fadeStep v) s).opacityAttr.size = s.opacityAttr.size
    ∧ (L.foldl (fadeStep v) s).scaleAttr.size = s.scaleAttr.size
    ∧ (L.foldl (fadeStep v) s).blockCount = s.blockCount := by
  induction L generalizing s with
  | nil => exact ⟨rfl, rfl, rfl, rfl, rfl, rfl, rfl⟩
  | cons i rest ih =>
    obtain ⟨h1, h2, h3, h4, h5, h6, h7⟩ := ih (fadeStep v s i)
    rw [List.foldl_cons]
    exact ⟨h1.trans (fadeStep_colorAttr v s i), h2.trans (fadeStep_originalOpacities v s i),
      h3.trans (fadeStep_originalScales v s i), h4.trans (fadeStep_originalColors v s i),
      h5.trans (fadeStep_opacity_size v s i), h6.trans (fadeStep_scale_size v s i),
      h7.trans (fadeStep_blockCount v s i)⟩

theorem fade_loop_opacity_notmem (v : Finset Nat) (L : List Nat) (s : NodeStore) (j : Nat)
    (hj : j ∉ L) :
    (L.foldl (fadeStep v) s).opacityAttr.data j = s.opacityAttr.data j := by
  induction L generalizing s with
  | nil => rfl
  | cons i rest ih =>
    rw [List.foldl_cons]
    rw [ih _ (fun h => hj (List.mem_cons_of_mem _ h))]
    rw [fadeStep_opacity_data]
    exact if_neg (fun hc => hj (by rw [hc.1]; exact List.mem_cons_self i rest))

theorem fade_loop_scale_notmem (v : Finset Nat) (L : List Nat) (s : NodeStore) (j : Nat)
    (hj : j ∉ L) :
    (L.foldl (fadeStep v) s).scaleAttr.data j = s.scaleAttr.data j := by
  induction L generalizing s with
  | nil => rfl
  | cons i rest ih =>
    rw [List.foldl_cons]
    rw [ih _ (fun h => hj (List.mem_cons_of_mem _ h))]
    rw [fadeStep_scale_data]
    exact if_neg (fun hc => hj (by rw [hc.1]; exact List.mem_cons_self i rest))

theorem fade_loop_opacity_mem (v : Finset Nat) (L : List Nat) (s : NodeStore) (j : Nat)
    (hj : j < s.opacityAttr.size) (hjL : j ∈ L) :
    (L.foldl (fadeStep v) s).opacityAttr.data j
      = if j ∈ v then s.originalOpacities.data j else FADED_OPACITY := by
  induction L generalizing s with
  | nil => cases hjL
  | cons i rest ih =>
    rw [List.foldl_cons]
    by_cases hjr : j ∈ rest
    · rw [ih (fadeStep v s i) (by rw [fadeStep_opacity_size]; exact hj) hjr]
      rw [fadeStep_originalOpacities]
    · have hji : j = i := (List.mem_cons.mp hjL).resolve_right hjr
      subst hji
      rw [fade_loop_opacity_notmem v rest _ j hjr]
      rw [fadeStep_opacity_data, if_pos ⟨rfl, hj⟩]

theorem fade_loop_scale_mem (v : Finset Nat) (L : List Nat) (s : NodeStore) (j : Nat)
    (hj : j < s.scaleAttr.size) (hjL : j ∈ L) :
    (L.foldl (fadeStep v) s).scaleAttr.data j
      = if j ∈ v then s.originalScales.data j else (0.5 : ℚ) := by
  induction L generalizing s with
  | nil => cases hjL
  | cons i rest ih =>
    rw [List.foldl_cons]
    by_cases hjr : j ∈ rest
    · rw [ih (fadeStep v s i) (by rw [fadeStep_scale_size]; exact hj) hjr]
      rw [fadeStep_originalScales]
    · have hji : j = i := (List.mem_cons.mp hjL).resolve_right hjr
      subst hji
      rw [fade_loop_scale_notmem v rest _ j hjr]
      rw [fadeStep_scale_data, if_pos ⟨rfl, hj⟩]

/-- C6 counterexample: in a store whose current color buffer differs from
the saved originals (any highlight recoloring does this), `fadeAllExcept`
over the full index range is *not* the same as `resetAttributes`: the
former leaves the modified color (1), the latter restores the original
(0). -/
theorem fadeAllExcept_full_not_reset :
    (fadeAllExcept (Finset.range demoStore.blockCount) demoStore).colorAttr.read 0 = some 1
    ∧ (resetAttributes demoStore).colorAttr.read 0 = some 0 := by
  constructor <;> decide

/-- C6 (amended): `fadeAllExcept` of the empty set writes the faded opacity
and scale at every block index; `fadeAllExcept` of the full index range
restores the original opacity and scale buffers exactly as
`resetAttributes` does, but — unlike `resetAttributes` — leaves the color
buffer untouched, so the two agree only when the colors are already at
their originals. -/
theorem fadeAllExcept_spec (ns : NodeStore) (hWF : ns.WF) :
    (∀ i, i < ns.blockCount →
        (fadeAllExcept ∅ ns).opacityAttr.read i = some FADED_OPACITY
        ∧ (fadeAllExcept ∅ ns).scaleAttr.read i = some (0.5 : ℚ))
    ∧ (fadeAllExcept (Finset.range ns.blockCount) ns).opacityAttr
        = (resetAttributes ns).opacityAttr
    ∧ (fadeAllExcept (Finset.range ns.blockCount) ns).scaleAttr
        = (resetAttributes ns).scaleAttr
    ∧ (fadeAllExcept (Finset.range ns.blockCount) ns).colorAttr = ns.colorAttr := by
  obtain ⟨hc, ho, hs, hoc, hoo, hos, -⟩ := hWF
  unfold fadeAllExcept commitAttributes
  refine ⟨?_, ?_, ?_, (fade_loop_fields _ _ _).1⟩
  · intro i hi
    constructor
    · unfold FArr.read
      rw [(fade_loop_fields ∅ (List.range ns.blockCount) ns).2.2.2.2.1, ho, if_pos hi]
      rw [fade_loop_opacity_mem ∅ _ _ i (by rw [ho]; exact hi) (List.mem_range.mpr hi)]
      simp
    · unfold FArr.read
      rw [(fade_loop_fields ∅ (List.range ns.blockCount) ns).2.2.2.2.2.1, hs, if_pos hi]
      rw [fade_loop_scale_mem ∅ _ _ i (by rw [hs]; exact hi) (List.mem_range.mpr hi)]
      simp
  · apply FArr.ext
    · rw [(fade_loop_fields _ (List.range ns.blockCount) ns).2.2.2.2.1]
      simp [resetAttributes, commitAttributes, FArr.copyFrom]
    · funext j
      by_cases hj : j < ns.blockCount
      · rw [fade_loop_opacity_mem _ _ _ j (by rw [ho]; exact hj) (List.mem_range.mpr hj)]
        rw [if_pos (Finset.mem_range.mpr hj)]
        simp [resetAttributes, commitAttributes, FArr.copyFrom, hoo, hj]
      · rw [fade_loop_opacity_notmem _ _ _ j (fun h => hj (List.mem_range.mp h))]
        simp [resetAttributes, commitAttributes, FArr.copyFrom, hoo, hj]
  · apply FArr.ext
    · rw [(fade_loop_fields _ (List.range ns.blockCount) ns).2.2.2.2.2.1]
      simp [resetAttributes, commitAttributes, FArr.copyFrom]
    · funext j
      by_cases hj : j < ns.blockCount
      · rw [fade_loop_scale_mem _ _ _ j (by rw [hs]; exact hj) (List.mem_range.mpr hj)]
        rw [if_pos (Finset.mem_range.mpr hj)]
        simp [resetAttributes, commitAttributes, FArr.copyFrom, hos, hj]
      · rw [fade_loop_scale_notmem _ _ _ j (fun h => hj (List.mem_range.mp h))]
        simp [resetAttributes, commitAttributes, FArr.copyFrom, hos, hj]

/-- Witness for C6 (amended) at the concrete demo store. -/
theorem fadeAllExcept_spec_witness :
    (∀ i, i < demoStore.blockCount →
        (fadeAllExcept ∅ demoStore).opacityAttr.read i = some FADED_OPACITY
        ∧ (fadeAllExcept ∅ demoStore).scaleAttr.read i = some (0.5 : ℚ))
    ∧ (fadeAllExcept (Finset.range demoStore.blockCount) demoStore).opacityAttr
        = (resetAttributes demoStore).opacityAttr
    ∧ (fadeAllExcept (Finset.range demoStore.blockCount) demoStore).scaleAttr
        = (resetAttributes demoStore).scaleAttr
    ∧ (fadeAllExcept (Finset.range demoStore.blockCount) demoStore).colorAttr
        = demoStore.colorAttr :=
  fadeAllExcept_spec demoStore (by decide)

/-! ## Adjacency lemmas and claim C7 -/

theorem pushPair_apply (m : String → List String) (s t v : String) :
    adjStep m ⟨s, t⟩ v
      = m v ++ ((if s = v then [t] else []) ++ (if t = v then [s] else [])) := by
  unfold adjStep pushEntry
  by_cases hvt : v = t
  · subst hvt
    by_cases hvs : v = s
    · subst hvs; simp
    · have hsv : ¬ s = v := fun h => hvs h.symm
      simp [hvs, hsv]
  · by_cases hvs : v = s
    · subst hvs
      have htv : ¬ t = v := fun h => hvt h.symm
      simp [hvt, htv]
    · have hsv : ¬ s = v := fun h => hvs h.symm
      have htv : ¬ t = v := fun h => hvt h.symm
      simp [hvt, hvs, hsv, htv]

theorem adjacency_foldl (es : List RawEdge) (m : String → List String) (v : String) :
    es.foldl adjStep m v
      = m v ++ es.flatMap (fun e =>
          (if e.source = v then [e.target] else []) ++ (if e.target = v then [e.source] else [])) := by
  induction es generalizing m with
  | nil => simp
  | cons e es ih =>
    rw [List.foldl_cons, ih]
    rw [show adjStep m e = adjStep m ⟨e.source, e.target⟩ from rfl, pushPair_apply]
    simp [List.append_assoc]

theorem mem_adjacencyOf (edges : List RawEdge) (a b : String) :
    b ∈ adjacencyOf edges a
      ↔ ∃ e ∈ edges, (e.source = a ∧ e.target = b) ∨ (e.target = a ∧ e.source = b) := by
  unfold adjacencyOf
  rw [adjacency_foldl]
  simp only [List.nil_append, List.mem_flatMap, List.mem_append]
  refine exists_congr fun e => and_congr_right fun _ => ?_
  by_cases h1 : e.source = a <;> by_cases h2 : e.target = a <;> simp [h1, h2, eq_comm]

/-- C7: the adjacency structure built at load is symmetric, for every input
edge list (duplicate and dangling edges included). -/
theorem adjacency_symmetric (edges : List RawEdge) (a b : String) :
    b ∈ adjacencyOf edges a ↔ a ∈ adjacencyOf edges b := by
  rw [mem_adjacencyOf, mem_adjacencyOf]
  constructor <;> rintro ⟨e, he, h⟩ <;> exact ⟨e, he, by tauto⟩

/-! ## Loading errors: claim C2 -/

/-- C2 counterexample: a raw input with the `meta` section missing makes the
constructor throw a `TypeError` (from `raw.meta.searchIndex`), not the
`MalformedGraphError` the claim names — no such error class exists in the
code. -/
theorem loadGraph_typeError_not_malformed :
    loadGraph { meta := none, elements := some { nodes := some [], edges := some [] } }
        = Except.error JsError.typeError
      ∧ JsError.typeError ≠ JsError.malformedGraphError :=
  ⟨rfl, by decide⟩

/-- C2 (amended): for every raw input with a required top-level section
missing (`meta`, `elements`, or the node/edge lists), the constructor fails
synchronously — with a `TypeError`, not a `MalformedGraphError` — and no
model value is ever produced. -/
theorem loadGraph_missing_section_throws (raw : RawInput)
    (h : raw.meta = none ∨ raw.elements = none ∨
        ∃ els, raw.elements = some els ∧ (els.nodes = none ∨ els.edges = none)) :
    loadGraph raw = Except.error JsError.typeError := by
  rcases h with h | h | ⟨e, he, h⟩
  · simp [loadGraph, h]
  · cases hm : raw.meta with
    | none => simp [loadGraph, hm]
    | some u => simp [loadGraph, hm, h]
  · cases hm : raw.meta with
    | none => simp [loadGraph, hm]
    | some u =>
      rcases h with h | h
      · simp [loadGraph, hm, he, h]
      · cases hn : e.nodes with
        | none => simp [loadGraph, hm, he, hn]
        | some ns => simp [loadGraph, hm, he, hn, h]

/-- Witness for C2 (amended) at a concrete input: missing node list. -/
theorem loadGraph_missing_section_witness :
    loadGraph { meta := some (), elements := some { nodes := none, edges := some [] } }
      = Except.error JsError.typeError :=
  loadGraph_missing_section_throws _ (Or.inr (Or.inr ⟨_, rfl, Or.inl rfl⟩))

/-! ## Membership map lemmas and claim C3 -/

theorem blockToChannels_mono (es : List RawEdge) (m : String → List String)
    (s t : String) (h : s ∈ m t) : s ∈ es.foldl blockToChannelsStep m t := by
  induction es generalizing m with
  | nil => exact h
  | cons e es ih =>
    rw [List.foldl_cons]
    refine ih _ ?_
    unfold blockToChannelsStep
    by_cases hc : e.source ∈ m e.target
    · rw [if_pos hc]; exact h
    · rw [if_neg hc]
      show s ∈ if t = e.target then m e.target ++ [e.source] else m t
      by_cases ht : t = e.target
      · rw [if_pos ht]; exact List.mem_append_left _ (ht ▸ h)
      · rw [if_neg ht]; exact h

theorem mem_blockToChannelsMapOf (edges : List RawEdge) (e : RawEdge) (he : e ∈ edges) :
    e.source ∈ blockToChannelsMapOf edges e.target := by
  unfold blockToChannelsMapOf
  suffices h : ∀ (es : List RawEdge) (m : String → List String), e ∈ es →
      e.source ∈ es.foldl blockToChannelsStep m e.target from h edges _ he
  intro es
  induction es with
  | nil => intro m h; cases h
  | cons a as ih =>
    intro m h
    rw [List.foldl_cons]
    rcases List.mem_cons.mp h with h | h
    · subst h
      apply blockToChannels_mono
      unfold blockToChannelsStep
      by_cases hc : e.source ∈ m e.target
      · rw [if_pos hc]; exact hc
      · rw [if_neg hc]
        show e.source ∈ if e.target = e.target then m e.target ++ [e.source] else m e.target
        rw [if_pos rfl]
        exact List.mem_append_right _ (List.mem_singleton.mpr rfl)
    · exact ih _ h

/-- C3 counterexample: a dangling edge (source `"zz"` absent from the node
list) is not skipped at load: it creates adjacency entries for both ids,
a membership entry, and hijacks the target block's color assignment
(the color becomes `undefined`, modelled `none`). -/
theorem dangling_edge_not_skipped :
    adjacencyOf [⟨"zz", "b"⟩] "zz" = ["b"]
    ∧ adjacencyOf [⟨"zz", "b"⟩] "b" = ["zz"]
    ∧ blockChannelMapOf [⟨"zz", "b"⟩] "b" = some "zz"
    ∧ blockToChannelsMapOf [⟨"zz", "b"⟩] "b" = ["zz"]
    ∧ blockColorOf [⟨"c", "channel"⟩, ⟨"b", "block"⟩] [⟨"zz", "b"⟩] "b" = none := by
  refine ⟨?_, ?_, ?_, ?_, ?_⟩ <;> decide

/-- C3 (amended): dangling ids never make the load fail, but the edge is
not skipped either — every input edge, dangling or not, contributes its
endpoints to the adjacency lists and its source to the membership list of
its target.  The only "skip" is at render time: `updatePositions` places an
unknown source id at the origin. -/
theorem dangling_edges_processed (nodes : List NodeData) (edges : List RawEdge)
    (e : RawEdge) (he : e ∈ edges) :
    loadGraph { meta := some (), elements := some { nodes := some nodes, edges := some edges } }
        = Except.ok { channels := channelsOf nodes, blocks := blocksOf nodes, edges := edges }
    ∧ e.target ∈ adjacencyOf edges e.source
    ∧ e.source ∈ adjacencyOf edges e.target
    ∧ e.source ∈ blockToChannelsMapOf edges e.target
    ∧ (channelIndexMapOf (channelsOf nodes) e.source = none →
        ∀ chanPos, edgeSourcePos (channelsOf nodes) chanPos e = (0, 0, 0)) := by
  refine ⟨rfl, ?_, ?_, mem_blockToChannelsMapOf edges e he, ?_⟩
  · exact (mem_adjacencyOf _ _ _).mpr ⟨e, he, Or.inl ⟨rfl, rfl⟩⟩
  · exact (mem_adjacencyOf _ _ _).mpr ⟨e, he, Or.inr ⟨rfl, rfl⟩⟩
  · intro h chanPos
    unfold edgeSourcePos
    rw [h]

/-- Witness for C3 (amended) at a concrete dangling edge. -/
theorem dangling_edges_processed_witness :
    loadGraph { meta := some (), elements := some { nodes := some [], edges := some [⟨"zz", "b"⟩] } }
        = Except.ok { channels := channelsOf [], blocks := blocksOf [], edges := [⟨"zz", "b"⟩] }
    ∧ "b" ∈ adjacencyOf [⟨"zz", "b"⟩] "zz"
    ∧ "zz" ∈ adjacencyOf [⟨"zz", "b"⟩] "b"
    ∧ "zz" ∈ blockToChannelsMapOf [⟨"zz", "b"⟩] "b"
    ∧ (channelIndexMapOf (channelsOf []) "zz" = none →
        ∀ chanPos, edgeSourcePos (channelsOf []) chanPos ⟨"zz", "b"⟩ = (0, 0, 0)) :=
  dangling_edges_processed [] [⟨"zz", "b"⟩] ⟨"zz", "b"⟩ (by decide)

/-! ## Block color lemmas and claim C8 -/

theorem specFirstOwner_cons_of_ne (e : RawEdge) (es : List RawEdge) (x : String)
    (h : ¬ e.target = x) : specFirstOwner (e :: es) x = specFirstOwner es x := by
  unfold specFirstOwner
  rw [List.find?_cons_of_neg]
  simp [h]

theorem specFirstOwner_cons_self (e : RawEdge) (es : List RawEdge) :
    specFirstOwner (e :: es) e.target = some e.source := by
  unfold specFirstOwner
  rw [List.find?_cons_of_pos _ (by simp)]
  rfl

theorem blockChannelFold (es : List RawEdge) (hsrc : ∀ e ∈ es, e.source ≠ "")
    (m : String → Option String) (hm : ∀ y, m y ≠ some "") (x : String) :
    es.foldl blockChannelStep m x
      = match m x with
        | some v => some v
        | none => specFirstOwner es x := by
  induction es generalizing m with
  | nil => cases hmx : m x <;> simp [specFirstOwner, hmx]
  | cons e es ih =>
    have hsrc' : ∀ a ∈ es, a.source ≠ "" := fun a ha => hsrc a (List.mem_cons_of_mem _ ha)
    rw [List.foldl_cons]
    by_cases hcond : m e.target = none ∨ m e.target = some ""
    · have htgt : m e.target = none := by
        rcases hcond with h | h
        · exact h
        · exact absurd h (hm _)
      have hstep : blockChannelStep m e = fun y => if y = e.target then some e.source else m y := by
        unfold blockChannelStep
        rw [if_pos hcond]
      have hm' : ∀ y, blockChannelStep m e y ≠ some "" := by
        intro y
        rw [hstep]
        show (if y = e.target then some e.source else m y) ≠ some ""
        by_cases hy : y = e.target
        · rw [if_pos hy]
          intro hc
          exact hsrc e (List.mem_cons_self e es) (Option.some.inj hc)
        · rw [if_neg hy]; exact hm y
      rw [ih hsrc' _ hm']
      have happ : blockChannelStep m e x = if x = e.target then some e.source else m x := by
        rw [hstep]
      by_cases hx : x = e.target
      · subst hx
        rw [happ, if_pos rfl, htgt]
        show some e.source = specFirstOwner (e :: es) e.target
        rw [specFirstOwner_cons_self]
      · rw [happ, if_neg hx]
        have hskip : specFirstOwner (e :: es) x = specFirstOwner es x :=
          specFirstOwner_cons_of_ne e es x (fun hc => hx hc.symm)
        rw [hskip]
    · have hstep : blockChannelStep m e = m := by
        unfold blockChannelStep
        rw [if_neg hcond]
      rw [hstep, ih hsrc' m hm]
      cases hmx : m x with
      | some v => rfl
      | none =>
        have hx : ¬ x = e.target := fun hxe => hcond (Or.inl (hxe ▸ hmx))
        show specFirstOwner es x = specFirstOwner (e :: es) x
        rw [specFirstOwner_cons_of_ne e es x (fun hc => hx hc.symm)]

theorem blockChannelMapOf_eq_specFirstOwner (edges : List RawEdge)
    (hsrc : ∀ e ∈ edges, e.source ≠ "") (x : String) :
    blockChannelMapOf edges x = specFirstOwner edges x := by
  unfold blockChannelMapOf
  rw [blockChannelFold edges hsrc _ (fun y => by simp) x]

theorem channelColorLoop_isSome (chs : List NodeData) (x : String) :
    ∀ (i : Nat) (m : String → Option String),
      (channelColorLoop i m chs x).isSome
        ↔ (∃ d ∈ chs, d.id = x) ∨ (m x).isSome := by
  induction chs with
  | nil => intro i m; simp [channelColorLoop]
  | cons c rest ih =>
    intro i m
    rw [channelColorLoop]
    rw [ih]
    by_cases hx : x = c.id
    · simp [hx]
    · have hne : ¬ c.id = x := fun hc => hx hc.symm
      simp [hx, hne]

theorem channelColorMapOf_isSome_iff (chs : List NodeData) (x : String) :
    (channelColorMapOf chs x).isSome ↔ ∃ d ∈ chs, d.id = x := by
  unfold channelColorMapOf
  rw [channelColorLoop_isSome]
  simp

/-- C8 counterexample: with nodes `[channel c, block b]` and the single edge
`zz → b` (a dangling source), block `b` is owned by `"zz"` as its
first-listed channel, yet its color is neither any channel color nor the
default: the claim's color equation fails at this input. -/
theorem blockColor_dangling_owner :
    ¬ specClaimC8 [⟨"c", "channel"⟩, ⟨"b", "block"⟩] [⟨"zz", "b"⟩] := by
  intro h
  have hb : (⟨"b", "block"⟩ : NodeData) ∈ blocksOf [⟨"c", "channel"⟩, ⟨"b", "block"⟩] := by
    decide
  have h2 := h _ hb
  obtain ⟨c, hc, -⟩ := h2
  rw [show channelColorMapOf (channelsOf [⟨"c", "channel"⟩, ⟨"b", "block"⟩]) "zz" = none from
    by decide] at hc
  exact Option.noConfusion hc

/-- C8 (amended): with non-empty source ids, a block's assigned color is
determined by the source of the first edge targeting it — absent: default
color; a loaded channel: that channel's entry in the channel color map;
dangling: `undefined`.  The claim's equation holds exactly when the first
owner is a loaded channel. -/
theorem blockColor_first_owner (nodes : List NodeData) (edges : List RawEdge)
    (hsrc : ∀ e ∈ edges, e.source ≠ "") (b : NodeData) (_hb : b ∈ blocksOf nodes) :
    (specFirstOwner edges b.id = none → blockColorOf nodes edges b.id = some "#666666")
    ∧ (∀ ch, specFirstOwner edges b.id = some ch →
        blockColorOf nodes edges b.id = channelColorMapOf (channelsOf nodes) ch
        ∧ ((∃ d ∈ channelsOf nodes, d.id = ch)
            ↔ (channelColorMapOf (channelsOf nodes) ch).isSome)) := by
  constructor
  · intro h
    unfold blockColorOf
    rw [blockChannelMapOf_eq_specFirstOwner edges hsrc, h]
  · intro ch h
    have hch : ch ≠ "" := by
      obtain ⟨e, hfind, hmap⟩ := Option.map_eq_some'.mp h
      exact hmap ▸ hsrc e (List.mem_of_find?_eq_some hfind)
    refine ⟨?_, (channelColorMapOf_isSome_iff _ _).symm⟩
    unfold blockColorOf
    rw [blockChannelMapOf_eq_specFirstOwner edges hsrc, h]
    simp [hch]

/-- Witness for C8 (amended) at a concrete well-formed graph. -/
theorem blockColor_first_owner_witness :
    blockColorOf [⟨"c", "channel"⟩, ⟨"b", "block"⟩] [⟨"c", "b"⟩] "b"
      = channelColorMapOf (channelsOf [⟨"c", "channel"⟩, ⟨"b", "block"⟩]) "c" :=
  ((blockColor_first_owner [⟨"c", "channel"⟩, ⟨"b", "block"⟩] [⟨"c", "b"⟩]
    (by decide) ⟨"b", "block"⟩ (by decide)).2 "c" (by decide)).1

/-! ## Out-of-range behaviour of per-frame operations: claim C9 -/

/-- C9 counterexample: `setChannelPosition` with an out-of-range index
throws a `TypeError` (`this.channelMeshes[index]` is `undefined` and
`.position` dereferences it) — it is not validated, clamped or a no-op. -/
theorem setChannelPosition_throws :
    setChannelPosition demoStore 5 0 0 0 = Except.error JsError.typeError := by
  rfl

/-- C9 (amended): the block-buffer per-frame operations (position, color,
opacity, scale setters and `highlightEdges`) are silent no-ops on
out-of-range indices — they write past the end of typed arrays and never
throw — but `setChannelPosition`/`getChannelPosition` index a plain mesh
array and throw a `TypeError` exactly on out-of-range indices. -/
theorem per_frame_ops_oob (ns : NodeStore) (hWF : ns.WF) (i : Nat)
    (hi : ns.blockCount ≤ i) (x y z : ℚ) (es : EdgeStore) (hes : es.WF)
    (idxs : List Nat) (hidx : ∀ k ∈ idxs, es.edgeCount ≤ k) (c : ℚ × ℚ × ℚ) :
    setBlockPosition ns i x y z = ns
    ∧ setBlockColor ns i x y z = ns
    ∧ setBlockOpacity ns i x = ns
    ∧ setBlockScale ns i x = ns
    ∧ highlightEdges es idxs c = es
    ∧ (∀ ns₂ : NodeStore, ∀ j : Nat,
        (∃ ns', setChannelPosition ns₂ j x y z = Except.ok ns')
          ↔ j < ns₂.channelMeshes.length) := by
  obtain ⟨hc, ho, hs, -, -, -, hp, hm, hpm⟩ := hWF
  obtain ⟨hee, hec, -⟩ := hes
  refine ⟨?_, ?_, ?_, ?_, ?_, ?_⟩
  · unfold setBlockPosition
    rw [FArr.write_oob _ _ _ (by (try simp only [FArr.size_write]); omega),
      FArr.write_oob _ _ _ (by (try simp only [FArr.size_write]); omega),
      FArr.write_oob _ _ _ (by (try simp only [FArr.size_write]); omega),
      FArr.writeSlice_oob _ _ _ (by (try simp only [FArr.size_write]); omega),
      FArr.writeSlice_oob _ _ _ (by (try simp only [FArr.size_write]); omega)]
  · unfold setBlockColor
    rw [FArr.write_oob _ _ _ (by (try simp only [FArr.size_write]); omega),
      FArr.write_oob _ _ _ (by (try simp only [FArr.size_write]); omega),
      FArr.write_oob _ _ _ (by (try simp only [FArr.size_write]); omega)]
  · unfold setBlockOpacity
    rw [FArr.write_oob _ _ _ (by (try simp only [FArr.size_write]); omega)]
  · unfold setBlockScale
    rw [FArr.write_oob _ _ _ (by (try simp only [FArr.size_write]); omega)]
  · unfold highlightEdges
    have hfold : ∀ (L : List Nat), (∀ k ∈ L, es.edgeCount ≤ k) →
        L.foldl (fun a idx => setSlot6 a (idx * 6) c.1 c.2.1 c.2.2) es.colorArray
          = es.colorArray := by
      intro L
      induction L with
      | nil => intro _; rfl
      | cons k rest ih =>
        intro hL
        rw [List.foldl_cons]
        have hk : setSlot6 es.colorArray (k * 6) c.1 c.2.1 c.2.2 = es.colorArray := by
          unfold setSlot6
          exact FArr.writeSlice_oob _ _ _
            (by have := hL k (List.mem_cons_self k rest); omega)
        rw [hk]
        exact ih (fun a ha => hL a (List.mem_cons_of_mem _ ha))
    rw [hfold idxs hidx]
  · intro ns₂ j
    constructor
    · rintro ⟨ns', hok⟩
      by_contra hlen
      unfold setChannelPosition at hok
      rw [List.getElem?_eq_none (by (try simp only [FArr.size_write]); omega)] at hok
      exact Except.noConfusion hok
    · intro hlen
      refine ⟨{ ns₂ with channelMeshes := ns₂.channelMeshes.set j ⟨(x, y, z)⟩ }, ?_⟩
      unfold setChannelPosition
      rw [List.getElem?_eq_getElem hlen]

/-- Witness for C9 (amended) at concrete stores and indices. -/
theorem per_frame_ops_oob_witness :
    setBlockPosition demoStore 3 1 2 3 = demoStore
    ∧ setBlockColor demoStore 3 1 2 3 = demoStore
    ∧ setBlockOpacity demoStore 3 1 = demoStore
    ∧ setBlockScale demoStore 3 1 = demoStore
    ∧ highlightEdges demoEdgeStore [7] (1, 1, 1) = demoEdgeStore
    ∧ (∀ ns₂ : NodeStore, ∀ j : Nat,
        (∃ ns', setChannelPosition ns₂ j 1 2 3 = Except.ok ns')
          ↔ j < ns₂.channelMeshes.length) :=
  per_frame_ops_oob demoStore (by decide) 3 (by decide) 1 2 3 demoEdgeStore (by decide)
    [7] (by decide) (1, 1, 1)

/-! ## Edge fade/reset lemmas and claim C10 -/

theorem edgeVisible_congr (v : Finset Nat) (s t : EdgeStore) (i : Nat)
    (he : t.edges = s.edges) (hb : t.blockIndex = s.blockIndex) :
    edgeVisible v t i = edgeVisible v s i := by
  unfold edgeVisible
  rw [he, hb]

theorem fadeEdgeStep_edges (v : Finset Nat) (s : EdgeStore) (i : Nat) :
    (fadeEdgeStep v s i).edges = s.edges := by
  unfold fadeEdgeStep
  split <;> rfl

theorem fadeEdgeStep_blockIndex (v : Finset Nat) (s : EdgeStore) (i : Nat) :
    (fadeEdgeStep v s i).blockIndex = s.blockIndex := by
  unfold fadeEdgeStep
  split <;> rfl

theorem fadeEdgeStep_channelColor (v : Finset Nat) (s : EdgeStore) (i : Nat) :
    (fadeEdgeStep v s i).channelColor = s.channelColor := by
  unfold fadeEdgeStep
  split <;> rfl

theorem fadeEdgeStep_edgeCount (v : Finset Nat) (s : EdgeStore) (i : Nat) :
    (fadeEdgeStep v s i).edgeCount = s.edgeCount := by
  unfold fadeEdgeStep
  split <;> rfl

theorem fadeEdgeStep_positionArray (v : Finset Nat) (s : EdgeStore) (i : Nat) :
    (fadeEdgeStep v s i).positionArray = s.positionArray := by
  unfold fadeEdgeStep
  split <;> rfl

theorem fadeEdgeStep_color_size (v : Finset Nat) (s : EdgeStore) (i : Nat) :
    (fadeEdgeStep v s i).colorArray.size = s.colorArray.size := by
  unfold fadeEdgeStep
  split
  · rfl
  · simp [scaleSlot6, scaleSlot, FArr.size_write]

theorem fadeEdgeStep_color_data (v : Finset Nat) (s : EdgeStore) (i j : Nat) :
    (fadeEdgeStep v s i).colorArray.data j
      = if edgeVisible v s i then s.colorArray.data j
        else (scaleSlot6 s.colorArray (i * 6)).data j := by
  unfold fadeEdgeStep
  split <;> rfl

theorem fadeE_loop_fields (v : Finset Nat) (L : List Nat) (s : EdgeStore) :
    (L.foldl (fadeEdgeStep v) s).edges = s.edges
    ∧ (L.foldl (fadeEdgeStep v) s).blockIndex = s.blockIndex
    ∧ (L.foldl (fadeEdgeStep v) s).channelColor = s.channelColor
    ∧ (L.foldl (fadeEdgeStep v) s).edgeCount = s.edgeCount
    ∧ (L.foldl (fadeEdgeStep v) s).positionArray = s.positionArray
    ∧ (L.foldl (fadeEdgeStep v) s).colorArray.size = s.colorArray.size := by
  induction L generalizing s with
  | nil => exact ⟨rfl, rfl, rfl, rfl, rfl, rfl⟩
  | cons i rest ih =>
    obtain ⟨h1, h2, h3, h4, h5, h6⟩ := ih (fadeEdgeStep v s i)
    rw [List.foldl_cons]
    exact ⟨h1.trans (fadeEdgeStep_edges v s i), h2.trans (fadeEdgeStep_blockIndex v s i),
      h3.trans (fadeEdgeStep_channelColor v s i), h4.trans (fadeEdgeStep_edgeCount v s i),
      h5.trans (fadeEdgeStep_positionArray v s i), h6.trans (fadeEdgeStep_color_size v s i)⟩

theorem fadeE_loop_data_out (v : Finset Nat) (L : List Nat) (s : EdgeStore) (j : Nat)
    (hj : ∀ i ∈ L, ¬ (i * 6 ≤ j ∧ j < i * 6 + 6)) :
    (L.foldl (fadeEdgeStep v) s).colorArray.data j = s.colorArray.data j := by
  induction L generalizing s with
  | nil => rfl
  | cons i rest ih =>
    rw [List.foldl_cons]
    rw [ih _ (fun a ha => hj a (List.mem_cons_of_mem _ ha))]
    rw [fadeEdgeStep_color_data]
    split
    · rfl
    · rw [data_scaleSlot6,
        if_neg (fun hc => hj i (List.mem_cons_self i rest) ⟨hc.1, hc.2.1⟩)]

theorem fadeE_loop_data_mem (v : Finset Nat) (L : List Nat) (s : EdgeStore) (i j : Nat)
    (hNd : L.Nodup) (hiL : i ∈ L) (hwin : i * 6 ≤ j ∧ j < i * 6 + 6) :
    (L.foldl (fadeEdgeStep v) s).colorArray.data j
      = if edgeVisible v s i then s.colorArray.data j
        else if j < s.colorArray.size then s.colorArray.data j * (0.1 : ℚ)
        else s.colorArray.data j := by
  induction L generalizing s with
  | nil => cases hiL
  | cons b rest ih =>
    rw [List.foldl_cons]
    rcases List.mem_cons.mp hiL with rfl | hir
    · have hrest : ∀ a ∈ rest, ¬ (a * 6 ≤ j ∧ j < a * 6 + 6) := by
        intro a ha hcontra
        have hai : a = i := by omega
        rw [hai] at ha
        exact (List.nodup_cons.mp hNd).1 ha
      rw [fadeE_loop_data_out v rest _ j hrest]
      rw [fadeEdgeStep_color_data]
      split
      · rfl
      · rw [data_scaleSlot6]
        by_cases hsz : j < s.colorArray.size
        · rw [if_pos ⟨hwin.1, hwin.2, hsz⟩, if_pos hsz]
        · rw [if_neg (fun hc => hsz hc.2.2), if_neg hsz]
    · have hbi : b ≠ i := fun hc => (List.nodup_cons.mp hNd).1 (hc ▸ hir)
      have h1 : edgeVisible v (fadeEdgeStep v s b) i = edgeVisible v s i :=
        edgeVisible_congr v s _ i (fadeEdgeStep_edges v s b) (fadeEdgeStep_blockIndex v s b)
      have h2 : (fadeEdgeStep v s b).colorArray.data j = s.colorArray.data j := by
        rw [fadeEdgeStep_color_data]
        split
        · rfl
        · rw [data_scaleSlot6, if_neg (fun hc => by omega)]
      have h3 : (fadeEdgeStep v s b).colorArray.size = s.colorArray.size :=
        fadeEdgeStep_color_size v s b
      rw [ih (fadeEdgeStep v s b) (List.nodup_cons.mp hNd).2 hir, h1, h2, h3]

theorem resetEdgeStep_edges (s : EdgeStore) (i : Nat) :
    (resetEdgeStep s i).edges = s.edges := rfl

theorem resetEdgeStep_blockIndex (s : EdgeStore) (i : Nat) :
    (resetEdgeStep s i).blockIndex = s.blockIndex := rfl

theorem resetEdgeStep_channelColor (s : EdgeStore) (i : Nat) :
    (resetEdgeStep s i).channelColor = s.channelColor := rfl

theorem resetEdgeStep_edgeCount (s : EdgeStore) (i : Nat) :
    (resetEdgeStep s i).edgeCount = s.edgeCount := rfl

theorem resetEdgeStep_positionArray (s : EdgeStore) (i : Nat) :
    (resetEdgeStep s i).positionArray = s.positionArray := rfl

theorem resetEdgeStep_color_size (s : EdgeStore) (i : Nat) :
    (resetEdgeStep s i).colorArray.size = s.colorArray.size := by
  show (setSlot6 s.colorArray (i * 6) _ _ _).size = s.colorArray.size
  exact size_setSlot6 _ _ _ _ _

theorem resetE_loop_fields (L : List Nat) (s : EdgeStore) :
    (L.foldl resetEdgeStep s).edges = s.edges
    ∧ (L.foldl resetEdgeStep s).blockIndex = s.blockIndex
    ∧ (L.foldl resetEdgeStep s).channelColor = s.channelColor
    ∧ (L.foldl resetEdgeStep s).edgeCount = s.edgeCount
    ∧ (L.foldl resetEdgeStep s).positionArray = s.positionArray
    ∧ (L.foldl resetEdgeStep s).colorArray.size = s.colorArray.size := by
  induction L generalizing s with
  | nil => exact ⟨rfl, rfl, rfl, rfl, rfl, rfl⟩
  | cons i rest ih =>
    obtain ⟨h1, h2, h3, h4, h5, h6⟩ := ih (resetEdgeStep s i)
    rw [List.foldl_cons]
    exact ⟨h1.trans (resetEdgeStep_edges s i), h2.trans (resetEdgeStep_blockIndex s i),
      h3.trans (resetEdgeStep_channelColor s i), h4.trans (resetEdgeStep_edgeCount s i),
      h5.trans (resetEdgeStep_positionArray s i), h6.trans (resetEdgeStep_color_size s i)⟩

theorem slotValue_eq_edgeBaseComp (s : EdgeStore) (i k : Nat) (hk : k < 6) :
    [colorComp (getChannelColor s.channelColor ((s.edges.getD i ⟨"", ""⟩).source)) 1,
     colorComp (getChannelColor s.channelColor ((s.edges.getD i ⟨"", ""⟩).source)) 3,
     colorComp (getChannelColor s.channelColor ((s.edges.getD i ⟨"", ""⟩).source)) 5,
     colorComp (getChannelColor s.channelColor ((s.edges.getD i ⟨"", ""⟩).source)) 1,
     colorComp (getChannelColor s.channelColor ((s.edges.getD i ⟨"", ""⟩).source)) 3,
     colorComp (getChannelColor s.channelColor ((s.edges.getD i ⟨"", ""⟩).source)) 5].getD k 0
      = edgeBaseComp s i k := by
  have hc : k = 0 ∨ k = 1 ∨ k = 2 ∨ k = 3 ∨ k = 4 ∨ k = 5 := by omega
  rcases hc with rfl | rfl | rfl | rfl | rfl | rfl <;>
    simp only [List.getD_cons_zero, List.getD_cons_succ, edgeBaseComp]

theorem resetEdgeStep_colorArray (s : EdgeStore) (i : Nat) :
    (resetEdgeStep s i).colorArray
      = setSlot6 s.colorArray (i * 6)
          (colorComp (getChannelColor s.channelColor ((s.edges.getD i ⟨"", ""⟩).source)) 1)
          (colorComp (getChannelColor s.channelColor ((s.edges.getD i ⟨"", ""⟩).source)) 3)
          (colorComp (getChannelColor s.channelColor ((s.edges.getD i ⟨"", ""⟩).source)) 5) := by
  unfold resetEdgeStep
  rfl

theorem resetEdgeStep_color_data (s : EdgeStore) (i j : Nat) :
    (resetEdgeStep s i).colorArray.data j
      = if i * 6 ≤ j ∧ j < i * 6 + 6 ∧ j < s.colorArray.size
        then edgeBaseComp s i (j - i * 6)
        else s.colorArray.data j := by
  rw [resetEdgeStep_colorArray, data_setSlot6]
  split <;> rename_i h
  · exact slotValue_eq_edgeBaseComp s i (j - i * 6) (by omega)
  · rfl

theorem resetE_loop_data_out (L : List Nat) (s : EdgeStore) (j : Nat)
    (hj : ∀ i ∈ L, ¬ (i * 6 ≤ j ∧ j < i * 6 + 6)) :
    (L.foldl resetEdgeStep s).colorArray.data j = s.colorArray.data j := by
  induction L generalizing s with
  | nil => rfl
  | cons i rest ih =>
    rw [List.foldl_cons]
    rw [ih _ (fun a ha => hj a (List.mem_cons_of_mem _ ha))]
    rw [resetEdgeStep_color_data,
      if_neg (fun hc => hj i (List.mem_cons_self i rest) ⟨hc.1, hc.2.1⟩)]

theorem resetE_loop_data_mem (L : List Nat) (s : EdgeStore) (i j : Nat)
    (hNd : L.Nodup) (hiL : i ∈ L) (hwin : i * 6 ≤ j ∧ j < i * 6 + 6) :
    (L.foldl resetEdgeStep s).colorArray.data j
      = if j < s.colorArray.size then edgeBaseComp s i (j - i * 6)
        else s.colorArray.data j := by
  induction L generalizing s with
  | nil => cases hiL
  | cons b rest ih =>
    rw [List.foldl_cons]
    rcases List.mem_cons.mp hiL with rfl | hir
    · have hrest : ∀ a ∈ rest, ¬ (a * 6 ≤ j ∧ j < a * 6 + 6) := by
        intro a ha hcontra
        have hai : a = i := by omega
        rw [hai] at ha
        exact (List.nodup_cons.mp hNd).1 ha
      rw [resetE_loop_data_out rest _ j hrest]
      rw [resetEdgeStep_color_data]
      by_cases hsz : j < s.colorArray.size
      · rw [if_pos ⟨hwin.1, hwin.2, hsz⟩, if_pos hsz]
      · rw [if_neg (fun hc => hsz hc.2.2), if_neg hsz]
    · have hbi : b ≠ i := fun hc => (List.nodup_cons.mp hNd).1 (hc ▸ hir)
      have h2 : (resetEdgeStep s b).colorArray.data j = s.colorArray.data j := by
        rw [resetEdgeStep_color_data, if_neg (fun hc => by omega)]
      have h4 : edgeBaseComp (resetEdgeStep s b) i (j - i * 6)
          = edgeBaseComp s i (j - i * 6) := by
        unfold edgeBaseComp
        rw [resetEdgeStep_edges, resetEdgeStep_channelColor]
      rw [ih (resetEdgeStep s b) (List.nodup_cons.mp hNd).2 hir, h2, h4,
        resetEdgeStep_color_size]

/-- C10: `fadeEdgesExcept` is not idempotent.  For an edge whose target
block index is missing or outside the visible set, each call multiplies the
edge's six stored color floats in place by 0.1 (two consecutive calls leave
0.01 of the pre-call color); an edge whose target is visible keeps its
current color (it is not restored to the original); and `resetColors`
recomputes every slot from the channel color map, erasing any accumulated
dimming (`resetColors` after any fade equals `resetColors` of the original
state). -/
theorem fadeEdges_not_idempotent (S : Finset Nat) (s : EdgeStore) (hWF : s.WF)
    (i k : Nat) (hi : i < s.edgeCount) (hk : k < 6) :
    (edgeVisible S s i = false →
        (fadeEdgesExcept S s).colorArray.data (i * 6 + k)
            = s.colorArray.data (i * 6 + k) * (0.1 : ℚ)
        ∧ (fadeEdgesExcept S (fadeEdgesExcept S s)).colorArray.data (i * 6 + k)
            = s.colorArray.data (i * 6 + k) * (0.1 : ℚ) * (0.1 : ℚ))
    ∧ (edgeVisible S s i = true →
        (fadeEdgesExcept S s).colorArray.data (i * 6 + k)
            = s.colorArray.data (i * 6 + k))
    ∧ resetColors (fadeEdgesExcept S s) = resetColors s := by
  obtain ⟨hee, hec, hep⟩ := hWF
  have hjsz : i * 6 + k < s.colorArray.size := by rw [hec]; omega
  have hwin : i * 6 ≤ i * 6 + k ∧ i * 6 + k < i * 6 + 6 := ⟨by omega, by omega⟩
  have hmem1 : (fadeEdgesExcept S s).colorArray.data (i * 6 + k)
      = if edgeVisible S s i then s.colorArray.data (i * 6 + k)
        else s.colorArray.data (i * 6 + k) * (0.1 : ℚ) := by
    unfold fadeEdgesExcept
    rw [fadeE_loop_data_mem S _ s i _ (List.nodup_range _) (List.mem_range.mpr hi) hwin]
    by_cases hv : edgeVisible S s i
    · rw [if_pos hv, if_pos hv]
    · rw [if_neg hv, if_neg hv, if_pos hjsz]
  refine ⟨?_, ?_, ?_⟩
  · intro hinv
    have hv : ¬ (edgeVisible S s i = true) := by rw [hinv]; exact Bool.false_ne_true
    constructor
    · rw [hmem1, if_neg hv]
    · have hfields := fadeE_loop_fields S (List.range s.edgeCount) s
      have hcount : (fadeEdgesExcept S s).edgeCount = s.edgeCount := hfields.2.2.2.1
      have hvis : edgeVisible S (fadeEdgesExcept S s) i = edgeVisible S s i :=
        edgeVisible_congr S s _ i hfields.1 hfields.2.1
      have hsize : (fadeEdgesExcept S s).colorArray.size = s.colorArray.size :=
        hfields.2.2.2.2.2
      have hsz2 : i * 6 + k < (fadeEdgesExcept S s).colorArray.size := by
        rw [hsize]; exact hjsz
      have hmem2 : (fadeEdgesExcept S (fadeEdgesExcept S s)).colorArray.data (i * 6 + k)
          = if edgeVisible S (fadeEdgesExcept S s) i
            then (fadeEdgesExcept S s).colorArray.data (i * 6 + k)
            else (fadeEdgesExcept S s).colorArray.data (i * 6 + k) * (0.1 : ℚ) := by
        show ((List.range (fadeEdgesExcept S s).edgeCount).foldl (fadeEdgeStep S)
            (fadeEdgesExcept S s)).colorArray.data (i * 6 + k) = _
        rw [fadeE_loop_data_mem S _ _ i _ (List.nodup_range _)
          (List.mem_range.mpr (by rw [hcount]; exact hi)) hwin]
        by_cases hv2 : edgeVisible S (fadeEdgesExcept S s) i
        · rw [if_pos hv2, if_pos hv2]
        · rw [if_neg hv2, if_neg hv2, if_pos hsz2]
      rw [hmem2, hvis, if_neg hv, hmem1, if_neg hv]
  · intro hv
    rw [hmem1, if_pos hv]
  · have hfields := fadeE_loop_fields S (List.range s.edgeCount) s
    have hF1 : (fadeEdgesExcept S s).edges = s.edges := hfields.1
    have hF2 : (fadeEdgesExcept S s).blockIndex = s.blockIndex := hfields.2.1
    have hF3 : (fadeEdgesExcept S s).channelColor = s.channelColor := hfields.2.2.1
    have hF4 : (fadeEdgesExcept S s).edgeCount = s.edgeCount := hfields.2.2.2.1
    have hF5 : (fadeEdgesExcept S s).positionArray = s.positionArray := hfields.2.2.2.2.1
    have hF6 : (fadeEdgesExcept S s).colorArray.size = s.colorArray.size := hfields.2.2.2.2.2
    have hR : ∀ t : EdgeStore,
        resetColors t = (List.range t.edgeCount).foldl resetEdgeStep t := fun _ => rfl
    apply EdgeStore.ext
    · rw [hR, hR, (resetE_loop_fields _ _).2.2.2.1, (resetE_loop_fields _ _).2.2.2.1, hF4]
    · rw [hR, hR, (resetE_loop_fields _ _).1, (resetE_loop_fields _ _).1, hF1]
    · rw [hR, hR, (resetE_loop_fields _ _).2.2.2.2.1, (resetE_loop_fields _ _).2.2.2.2.1, hF5]
    · apply FArr.ext
      · rw [hR, hR, (resetE_loop_fields _ _).2.2.2.2.2, (resetE_loop_fields _ _).2.2.2.2.2,
          hF6]
      · funext j
        rw [hR, hR, hF4]
        by_cases hjw : ∃ a, a < s.edgeCount ∧ a * 6 ≤ j ∧ j < a * 6 + 6
        · obtain ⟨a, ha, haw⟩ := hjw
          rw [resetE_loop_data_mem _ _ a j (List.nodup_range _) (List.mem_range.mpr ha) haw,
            resetE_loop_data_mem _ _ a j (List.nodup_range _) (List.mem_range.mpr ha) haw]
          have hbc : edgeBaseComp (fadeEdgesExcept S s) a (j - a * 6)
              = edgeBaseComp s a (j - a * 6) := by
            unfold edgeBaseComp
            rw [hF1, hF3]
          rw [hbc, hF6]
          by_cases hsz : j < s.colorArray.size
          · rw [if_pos hsz, if_pos hsz]
          · rw [if_neg hsz, if_neg hsz]
            show ((List.range s.edgeCount).foldl (fadeEdgeStep S) s).colorArray.data j
              = s.colorArray.data j
            exact fadeE_loop_data_out S _ s j
              (fun b hb hc => hsz (by rw [hec]; have := List.mem_range.mp hb; omega))
        · push_neg at hjw
          rw [resetE_loop_data_out _ _ j
              (fun a ha hc => by
                have h2 := hjw a (List.mem_range.mp ha) hc.1
                omega),
            resetE_loop_data_out _ _ j
              (fun a ha hc => by
                have h2 := hjw a (List.mem_range.mp ha) hc.1
                omega)]
          show ((List.range s.edgeCount).foldl (fadeEdgeStep S) s).colorArray.data j
            = s.colorArray.data j
          exact fadeE_loop_data_out S _ s j
            (fun a ha hc => by
                have h2 := hjw a (List.mem_range.mp ha) hc.1
                omega)
    · rw [hR, hR, (resetE_loop_fields _ _).2.1, (resetE_loop_fields _ _).2.1, hF2]
    · rw [hR, hR, (resetE_loop_fields _ _).2.2.1, (resetE_loop_fields _ _).2.2.1, hF3]

/-- Witness for C10 at the concrete demo edge store (edge 0's target block
index 0 is outside the visible set `{5}`). -/
theorem fadeEdges_not_idempotent_witness :
    (edgeVisible {5} demoEdgeStore 0 = false →
        (fadeEdgesExcept {5} demoEdgeStore).colorArray.data 0
            = demoEdgeStore.colorArray.data 0 * (0.1 : ℚ)
        ∧ (fadeEdgesExcept {5} (fadeEdgesExcept {5} demoEdgeStore)).colorArray.data 0
            = demoEdgeStore.colorArray.data 0 * (0.1 : ℚ) * (0.1 : ℚ))
    ∧ (edgeVisible {5} demoEdgeStore 0 = true →
        (fadeEdgesExcept {5} demoEdgeStore).colorArray.data 0
            = demoEdgeStore.colorArray.data 0)
    ∧ resetColors (fadeEdgesExcept {5} demoEdgeStore) = resetColors demoEdgeStore := by
  have h := fadeEdges_not_idempotent {5} demoEdgeStore (by decide) 0 0 (by decide) (by decide)
  simpa using h

/-! ## Layout-engine scheduler lemmas and claim C5 -/

theorem animateTo_raf1 (g : GraphShape) (w : World) (layout : Layout) (d : ℚ)
    (hw : WInv w) :
    (animateTo g w layout d).raf = [(w.nextHandle, animOf g w layout d)] := by
  obtain ⟨hlen, hreg, hani, hcb⟩ := hw
  show (if w.engine.animating = true ∧ w.engine.animCallback.isSome = true then
      w.raf.filter (fun p => decide (some p.1 ≠ w.engine.animCallback))
    else w.raf) ++ [(w.nextHandle, animOf g w layout d)]
    = [(w.nextHandle, animOf g w layout d)]
  suffices h : (if w.engine.animating = true ∧ w.engine.animCallback.isSome = true then
      w.raf.filter (fun p => decide (some p.1 ≠ w.engine.animCallback))
    else w.raf) = [] by
    rw [h, List.nil_append]
  by_cases hcond : w.engine.animating = true ∧ w.engine.animCallback.isSome = true
  · rw [if_pos hcond]
    refine List.filter_eq_nil.mpr (fun p hp => ?_)
    have h1 := (hreg p hp).1
    simp [h1]
  · rw [if_neg hcond]
    cases hraf : w.raf with
    | nil => rfl
    | cons p rest =>
      exfalso
      have h1 := hreg p (by rw [hraf]; exact List.mem_cons_self p rest)
      exact hcond ⟨h1.2.1, by rw [h1.1]; rfl⟩

theorem WInv_init (p0 c0 : Nat → V3) (t0 : ℚ) : WInv (initWorld p0 c0 t0) := by
  refine ⟨by simp [initWorld], ?_, ?_, ?_⟩
  · intro p hp
    exact absurd hp (List.not_mem_nil p)
  · intro h
    exact absurd h (by simp [initWorld])
  · intro h hh
    exact Option.noConfusion hh

theorem WInv_animateTo (g : GraphShape) (w : World) (layout : Layout) (d : ℚ)
    (hw : WInv w) : WInv (animateTo g w layout d) := by
  have hraf := animateTo_raf1 g w layout d hw
  refine ⟨by rw [hraf]; exact le_refl 1, ?_, ?_, ?_⟩
  · intro p hp
    rw [hraf] at hp
    have hp' : p = (w.nextHandle, animOf g w layout d) := by simpa using hp
    subst hp'
    exact ⟨rfl, rfl, Nat.lt_succ_self _⟩
  · intro _
    rw [hraf]
    exact List.cons_ne_nil _ _
  · intro h hh
    have h1 : (animateTo g w layout d).engine.animCallback = some w.nextHandle := rfl
    rw [h1] at hh
    have h2 : h = w.nextHandle := (Option.some.inj hh).symm
    subst h2
    exact Nat.lt_succ_self _

theorem WInv_runStep (g : GraphShape) (w : World) (anim : AnimData)
    (hraf : w.raf = []) (hanim : w.engine.animating = true)
    (hcb : ∀ h, w.engine.animCallback = some h → h < w.nextHandle) :
    WInv (runStep g w anim) := by
  unfold runStep
  by_cases hstep : stepT w anim < 1
  · rw [if_pos hstep]
    refine ⟨?_, ?_, ?_, ?_⟩
    · show (w.raf ++ [(w.nextHandle, anim)]).length ≤ 1
      rw [hraf]
      exact le_refl 1
    · intro p hp
      have hp' : p = (w.nextHandle, anim) := by
        rw [hraf] at hp
        simpa using hp
      subst hp'
      exact ⟨rfl, hanim, Nat.lt_succ_self _⟩
    · intro _
      show w.raf ++ [(w.nextHandle, anim)] ≠ []
      rw [hraf]
      exact List.cons_ne_nil _ _
    · intro h hh
      have h2 : h = w.nextHandle := (Option.some.inj hh).symm
      subst h2
      exact Nat.lt_succ_self _
  · rw [if_neg hstep]
    refine ⟨?_, ?_, ?_, ?_⟩
    · show w.raf.length ≤ 1
      rw [hraf]
      exact Nat.zero_le 1
    · intro p hp
      rw [hraf] at hp
      exact absurd hp (List.not_mem_nil p)
    · intro hcontra
      exact absurd hcontra (by simp)
    · exact hcb

theorem WInv_fireFrame (g : GraphShape) (w : World) (dt : ℚ) (hw : WInv w) :
    WInv (fireFrame g w dt) := by
  obtain ⟨hlen, hreg, hani, hcb⟩ := hw
  cases hraf : w.raf with
  | nil =>
    have hfe : fireFrame g w dt = { w with now := w.now + dt, raf := [] } := by
      unfold fireFrame
      rw [hraf]
      rfl
    rw [hfe]
    refine ⟨by simp, ?_, ?_, hcb⟩
    · intro p hp
      exact absurd hp (List.not_mem_nil p)
    · intro hanim
      exact absurd hraf (hani hanim)
  | cons p rest =>
    have hrest : rest = [] := by
      rw [hraf] at hlen
      simp only [List.length_cons] at hlen
      exact List.length_eq_zero.mp (by omega)
    subst hrest
    have hp := hreg p (by rw [hraf]; exact List.mem_cons_self p [])
    have hfe : fireFrame g w dt = runStep g { w with now := w.now + dt, raf := [] } p.2 := by
      unfold fireFrame
      rw [hraf]
      rfl
    rw [hfe]
    exact WInv_runStep g _ p.2 rfl hp.2.1 (fun h hh => hcb h hh)

theorem reachable_WInv (g : GraphShape) (w : World) (h : ReachableW g w) : WInv w := by
  induction h with
  | init p0 c0 t0 => exact WInv_init p0 c0 t0
  | animate w layout d _ ih => exact WInv_animateTo g w layout d ih
  | frame w dt _ ih => exact WInv_fireFrame g w dt ih

/-- C5: calling `animateTo` while an animation is in flight cancels the
in-flight animation (its registered per-frame callback is removed and never
runs again), leaves exactly one pending registration (no queueing, so at
most one animation is ever active), and the new animation's start state is
the node and channel positions at the moment of the call: the very next
frame interpolates from exactly those positions towards the new layout. -/
theorem animateTo_cancel_and_restart (g : GraphShape) (w : World) (hw : ReachableW g w)
    (layout : Layout) (d : ℚ) (hd : 0 < d) :
    w.raf.length ≤ 1
    ∧ (∀ h, w.engine.animCallback = some h →
        ∀ p ∈ (animateTo g w layout d).raf, p.1 ≠ h)
    ∧ (animateTo g w layout d).raf = [(w.nextHandle, animOf g w layout d)]
    ∧ (animOf g w layout d).startBlock = (List.range g.blockCount).map w.blockPos
    ∧ (animOf g w layout d).startChannel = (List.range g.channelIds.length).map w.chanPos
    ∧ (animOf g w layout d).startTime = w.now
    ∧ (∀ dt : ℚ, 0 < dt → dt < d →
        (∀ i, i < g.blockCount → ∀ e : V3, layout.blockPositions i = some e →
          (fireFrame g (animateTo g w layout d) dt).blockPos i
            = lerp3 (w.blockPos i) e (easeOutCubic (dt / d)))
        ∧ (∀ i, i < g.channelIds.length → ∀ e : V3,
            layout.channelPositions (g.channelIds.getD i "") = some e →
          (fireFrame g (animateTo g w layout d) dt).chanPos i
            = lerp3 (w.chanPos i) e (easeOutCubic (dt / d)))) := by
  have hWI := reachable_WInv g w hw
  have hraf := animateTo_raf1 g w layout d hWI
  refine ⟨hWI.1, ?_, hraf, rfl, rfl, rfl, ?_⟩
  · intro h hh p hp
    rw [hraf] at hp
    have hp' : p = (w.nextHandle, animOf g w layout d) := by simpa using hp
    subst hp'
    have hlt := hWI.2.2.2 h hh
    exact fun hc => absurd (hc ▸ hlt) (lt_irrefl _)
  · intro dt hdt hdtd
    have hnow : (animateTo g w layout d).now = w.now := rfl
    have hfe : fireFrame g (animateTo g w layout d) dt
        = runStep g
            { animateTo g w layout d with now := w.now + dt, raf := [] }
            (animOf g w layout d) := by
      unfold fireFrame
      rw [hraf]
      rfl
    set w1 : World := { animateTo g w layout d with now := w.now + dt, raf := [] }
      with hw1
    have ht0 : (w1.now - (animOf g w layout d).startTime) / (animOf g w layout d).duration
        = dt / d := by
      show (w.now + dt - w.now) / d = dt / d
      ring_nf
    have htlt : dt / d < 1 := (div_lt_one hd).mpr hdtd
    have hstepT : stepT w1 (animOf g w layout d) = dt / d := by
      unfold stepT
      rw [ht0, if_neg (by linarith)]
    have hrun : runStep g w1 (animOf g w layout d)
        = { w1 with
            blockPos := stepBlockPos g w1 (animOf g w layout d),
            chanPos := stepChanPos g w1 (animOf g w layout d),
            raf := w1.raf ++ [(w1.nextHandle, animOf g w layout d)],
            engine := { w1.engine with animCallback := some w1.nextHandle },
            nextHandle := w1.nextHandle + 1 } := by
      unfold runStep
      rw [hstepT, if_pos htlt]
    constructor
    · intro i hi e he
      rw [hfe, hrun]
      show stepBlockPos g w1 (animOf g w layout d) i = _
      unfold stepBlockPos
      rw [if_pos hi]
      have hsb : (animOf g w layout d).startBlock[i]? = some (w.blockPos i) := by
        show ((List.range g.blockCount).map w.blockPos)[i]? = some (w.blockPos i)
        rw [List.getElem?_map, List.getElem?_range hi]
        rfl
      have hta : (animOf g w layout d).target.blockPositions i = some e := he
      rw [hsb, hta, hstepT]
    · intro i hi e he
      rw [hfe, hrun]
      show stepChanPos g w1 (animOf g w layout d) i = _
      unfold stepChanPos
      rw [if_pos hi]
      have hsb : (animOf g w layout d).startChannel[i]? = some (w.chanPos i) := by
        show ((List.range g.channelIds.length).map w.chanPos)[i]? = some (w.chanPos i)
        rw [List.getElem?_map, List.getElem?_range hi]
        rfl
      have hta : (animOf g w layout d).target.channelPositions (g.channelIds.getD i "")
          = some e := he
      rw [hsb, hta, hstepT]

/-- Witness for C5 at a concrete reachable world (the freshly constructed
engine) and a concrete layout. -/
theorem animateTo_cancel_and_restart_witness :
    (initWorld (fun _ => (0, 0, 0)) (fun _ => (0, 0, 0)) 0).raf.length ≤ 1
    ∧ (∀ h, (initWorld (fun _ => (0, 0, 0)) (fun _ => (0, 0, 0)) 0).engine.animCallback
          = some h →
        ∀ p ∈ (animateTo ⟨1, ["c"]⟩ (initWorld (fun _ => (0, 0, 0)) (fun _ => (0, 0, 0)) 0)
            ⟨fun _ => some (1, 2, 3), fun _ => none⟩ 600).raf, p.1 ≠ h)
    ∧ (animateTo ⟨1, ["c"]⟩ (initWorld (fun _ => (0, 0, 0)) (fun _ => (0, 0, 0)) 0)
          ⟨fun _ => some (1, 2, 3), fun _ => none⟩ 600).raf
        = [((initWorld (fun _ => (0, 0, 0)) (fun _ => (0, 0, 0)) 0).nextHandle,
            animOf ⟨1, ["c"]⟩ (initWorld (fun _ => (0, 0, 0)) (fun _ => (0, 0, 0)) 0)
              ⟨fun _ => some (1, 2, 3), fun _ => none⟩ 600)]
    ∧ (animOf ⟨1, ["c"]⟩ (initWorld (fun _ => (0, 0, 0)) (fun _ => (0, 0, 0)) 0)
          ⟨fun _ => some (1, 2, 3), fun _ => none⟩ 600).startBlock
        = (List.range (1 : Nat)).map
            (initWorld (fun _ => (0, 0, 0)) (fun _ => (0, 0, 0)) 0).blockPos
    ∧ (animOf ⟨1, ["c"]⟩ (initWorld (fun _ => (0, 0, 0)) (fun _ => (0, 0, 0)) 0)
          ⟨fun _ => some (1, 2, 3), fun _ => none⟩ 600).startChannel
        = (List.range (["c"] : List String).length).map
            (initWorld (fun _ => (0, 0, 0)) (fun _ => (0, 0, 0)) 0).chanPos
    ∧ (animOf ⟨1, ["c"]⟩ (initWorld (fun _ => (0, 0, 0)) (fun _ => (0, 0, 0)) 0)
          ⟨fun _ => some (1, 2, 3), fun _ => none⟩ 600).startTime
        = (initWorld (fun _ => (0, 0, 0)) (fun _ => (0, 0, 0)) 0).now
    ∧ (∀ dt : ℚ, 0 < dt → dt < 600 →
        (∀ i, i < (1 : Nat) → ∀ e : V3,
            (⟨fun _ => some (1, 2, 3), fun _ => none⟩ : Layout).blockPositions i = some e →
          (fireFrame ⟨1, ["c"]⟩
              (animateTo ⟨1, ["c"]⟩ (initWorld (fun _ => (0, 0, 0)) (fun _ => (0, 0, 0)) 0)
                ⟨fun _ => some (1, 2, 3), fun _ => none⟩ 600) dt).blockPos i
            = lerp3 ((initWorld (fun _ => (0, 0, 0)) (fun _ => (0, 0, 0)) 0).blockPos i) e
                (easeOutCubic (dt / 600)))
        ∧ (∀ i, i < (["c"] : List String).length → ∀ e : V3,
            (⟨fun _ => some (1, 2, 3), fun _ => none⟩ : Layout).channelPositions
              ((["c"] : List String).getD i "") = some e →
          (fireFrame ⟨1, ["c"]⟩
              (animateTo ⟨1, ["c"]⟩ (initWorld (fun _ => (0, 0, 0)) (fun _ => (0, 0, 0)) 0)
                ⟨fun _ => some (1, 2, 3), fun _ => none⟩ 600) dt).chanPos i
            = lerp3 ((initWorld (fun _ => (0, 0, 0)) (fun _ => (0, 0, 0)) 0).chanPos i) e
                (easeOutCubic (dt / 600)))) :=
  animateTo_cancel_and_restart ⟨1, ["c"]⟩
    (initWorld (fun _ => (0, 0, 0)) (fun _ => (0, 0, 0)) 0)
    (ReachableW.init _ _ _) ⟨fun _ => some (1, 2, 3), fun _ => none⟩ 600 (by norm_num)

/-! ## C4: pick-id round trip -/

/-- C4: the pick-id pipeline is a lossless round trip: for every block
index `i` whose pick id `i + 1` is below `2^24`, encoding pick id `i + 1`
into the base-256 RGB byte triple (as `picking.vert` does) and decoding
that triple (as `Raycaster.pick` does, `r + 256*g + 65536*b`, id `n`
mapping to index `n - 1`) returns exactly `i`; decoding the all-zero
pixel returns no hit (`-1`). -/
theorem pick_roundtrip (i : Nat) (h : pickIdOf i < 2 ^ 24) :
    decodePick (encodePickId (pickIdOf i)).1 (encodePickId (pickIdOf i)).2.1
      (encodePickId (pickIdOf i)).2.2 = (i : Int)
    ∧ decodePick 0 0 0 = -1 := by
  have hlt : i + 1 < 16777216 := by simpa [pickIdOf] using h
  constructor
  · have hmain : decodePick ((i + 1) % 256) ((i + 1) / 256 % 256)
        ((i + 1) / 65536 % 256) = (i : Int) := by
      simp only [decodePick]
      rw [if_pos (by omega)]
      have hrec : (i + 1) % 256 + (i + 1) / 256 % 256 * 256
          + (i + 1) / 65536 % 256 * 65536 = i + 1 := by omega
      rw [hrec]
      push_cast
      ring
    exact hmain
  · rfl

/-- Witness for C4: block index 5 has pick id 6, within range, and the
round trip through the byte triple returns 5. -/
theorem pick_roundtrip_witness :
    pickIdOf 5 < 2 ^ 24
    ∧ (decodePick (encodePickId (pickIdOf 5)).1 (encodePickId (pickIdOf 5)).2.1
        (encodePickId (pickIdOf 5)).2.2 = (5 : Int)
      ∧ decodePick 0 0 0 = -1) :=
  ⟨by decide, pick_roundtrip 5 (by decide)⟩

/-! ## C1: BFS shortest path with enumeration-order tie-break -/

theorem lexLt_irrefl (adj : String → List String) :
    ∀ (u : String) (p : List String), ¬ LexLt adj u p p := by
  intro u p
  induction p generalizing u with
  | nil => simp [LexLt]
  | cons a as ih =>
      intro h
      rcases h with ⟨_, h⟩ | ⟨hne, _⟩
      · exact ih a h
      · exact hne rfl

theorem lexLt_trans (adj : String → List String) :
    ∀ (u : String) (p q r : List String),
      LexLt adj u p q → LexLt adj u q r → LexLt adj u p r := by
  intro u p
  induction p generalizing u with
  | nil => intro q r h; cases h
  | cons a as ih =>
      intro q r hpq hqr
      cases q with
      | nil => cases hpq
      | cons b bs =>
          cases r with
          | nil => cases hqr
          | cons c cs =>
              rcases hpq with ⟨rfl, h1⟩ | ⟨hne1, hlt1⟩
              · rcases hqr with ⟨rfl, h2⟩ | ⟨hne2, hlt2⟩
                · exact Or.inl ⟨rfl, ih a bs cs h1 h2⟩
                · exact Or.inr ⟨hne2, hlt2⟩
              · rcases hqr with ⟨rfl, h2⟩ | ⟨hne2, hlt2⟩
                · exact Or.inr ⟨hne1, hlt1⟩
                · by_cases hac : a = c
                  · subst hac
                    exact absurd (lt_trans hlt1 hlt2) (lt_irrefl _)
                  · exact Or.inr ⟨hac, lt_trans hlt1 hlt2⟩

theorem lexLt_append_mono (adj : String → List String) :
    ∀ (u : String) (p q : List String), LexLt adj u p q →
      ∀ n m, LexLt adj u (p ++ [n]) (q ++ [m]) := by
  intro u p
  induction p generalizing u with
  | nil => intro q h; cases h
  | cons a as ih =>
      intro q h n m
      cases q with
      | nil => cases h
      | cons b bs =>
          rcases h with ⟨rfl, h1⟩ | ⟨hne, hlt⟩
          · exact Or.inl ⟨rfl, ih a bs h1 n m⟩
          · exact Or.inr ⟨hne, hlt⟩

theorem lexLt_append_last (adj : String → List String) :
    ∀ (p : List String) (u c a b : String), p.getLast? = some c →
      (adj c).indexOf a < (adj c).indexOf b →
      LexLt adj u (p ++ [a]) (p ++ [b]) := by
  intro p
  induction p with
  | nil => intro u c a b h; cases h
  | cons x t ih =>
      intro u c a b hlast hidx
      have hab : a ≠ b := by
        rintro rfl; exact absurd hidx (lt_irrefl _)
      cases t with
      | nil =>
          have hx : x = c := by
            simpa using hlast
          subst hx
          exact Or.inl ⟨rfl, Or.inr ⟨hab, hidx⟩⟩
      | cons y s =>
          have hlast' : (y :: s).getLast? = some c := by
            simpa [List.getLast?_cons_cons] using hlast
          exact Or.inl ⟨rfl, ih x c a b hlast' hidx⟩

theorem walkLt_trans (adj : String → List String) (x : String) (p q r : List String)
    (h1 : WalkLt adj x p q) (h2 : WalkLt adj x q r) : WalkLt adj x p r := by
  rcases h1 with h1 | ⟨hl1, hx1⟩
  · rcases h2 with h2 | ⟨hl2, _⟩
    · exact Or.inl (lt_trans h1 h2)
    · exact Or.inl (hl2 ▸ h1)
  · rcases h2 with h2 | ⟨hl2, hx2⟩
    · exact Or.inl (hl1 ▸ h2)
    · exact Or.inr ⟨hl1.trans hl2, lexLt_trans adj x p q r hx1 hx2⟩

theorem walkLt_irrefl (adj : String → List String) (x : String) (p : List String) :
    ¬ WalkLt adj x p p := by
  rintro (h | ⟨_, h⟩)
  · exact lt_irrefl _ h
  · exact lexLt_irrefl adj x p h

theorem walkLt_append (adj : String → List String) (x : String) (p q : List String)
    (h : WalkLt adj x p q) (n m : String) : WalkLt adj x (p ++ [n]) (q ++ [m]) := by
  rcases h with h | ⟨hl, hx⟩
  · exact Or.inl (by simpa using Nat.succ_lt_succ h)
  · exact Or.inr ⟨by simpa using hl, lexLt_append_mono adj x p q hx n m⟩

theorem walkLt_le_length (adj : String → List String) (x : String) (p q : List String)
    (h : WalkLt adj x p q) : p.length ≤ q.length := by
  rcases h with h | ⟨hl, _⟩
  · exact le_of_lt h
  · exact le_of_eq hl

theorem isWalk_ne_nil (adj : String → List String) (x y : String) (p : List String)
    (h : IsWalk adj x y p) : p ≠ [] := by
  rintro rfl
  exact (by simpa using h.1)

theorem isWalk_snoc (adj : String → List String) (x c m : String) (p : List String)
    (h : IsWalk adj x c p) (hm : m ∈ adj c) : IsWalk adj x m (p ++ [m]) := by
  obtain ⟨h1, h2, h3⟩ := h
  refine ⟨?_, ?_, ?_⟩
  · cases p with
    | nil => simp at h1
    | cons a t => simpa using h1
  · simp
  · rw [List.chain'_append]
    refine ⟨h3, List.chain'_singleton _, ?_⟩
    intro z hz y hy
    simp only [List.head?_cons, Option.mem_def, Option.some.injEq] at hy
    rw [h2] at hz
    simp only [Option.mem_def, Option.some.injEq] at hz
    subst hz; subst hy
    exact hm

theorem isWalk_split (adj : String → List String) (x y : String) (w : List String)
    (h : IsWalk adj x y w) (hne : x ≠ y) :
    ∃ (w' : List String) (u : String), w = w' ++ [y] ∧ IsWalk adj x u w' ∧ y ∈ adj u := by
  obtain ⟨h1, h2, h3⟩ := h
  have hwne : w ≠ [] := by rintro rfl; simp at h1
  have hsplit : w.dropLast ++ [w.getLast hwne] = w := List.dropLast_append_getLast hwne
  have hy : w.getLast hwne = y := by
    have := List.getLast?_eq_getLast w hwne
    rw [h2] at this
    exact (Option.some.injEq _ _ ▸ this.symm)
  rw [hy] at hsplit
  have hdne : w.dropLast ≠ [] := by
    intro hnil
    rw [hnil] at hsplit
    rw [← hsplit] at h1
    simp at h1
    exact hne (h1.symm ▸ rfl)
  obtain ⟨u, hu⟩ : ∃ u, w.dropLast.getLast? = some u := by
    cases hh : w.dropLast.getLast? with
    | none => exact absurd (List.getLast?_eq_none_iff.mp hh) hdne
    | some u => exact ⟨u, rfl⟩
  refine ⟨w.dropLast, u, hsplit.symm, ⟨?_, hu, ?_⟩, ?_⟩
  · rw [← hsplit] at h1
    cases hd : w.dropLast with
    | nil => exact absurd hd hdne
    | cons a t =>
        rw [hd] at h1
        simpa using h1
  · rw [← hsplit] at h3
    exact (List.chain'_append.mp h3).1
  · rw [← hsplit] at h3
    have := (List.chain'_append.mp h3).2.2
    exact this u hu y (by simp)

theorem frontier_split (adj : String → List String) (V : Finset String) :
    ∀ (w : List String) (x u : String), IsWalk adj x u w → x ∈ V → u ∉ V →
    ∃ (pre : List String) (z u' : String), IsWalk adj x z pre ∧ z ∈ V ∧ u' ∉ V ∧
      u' ∈ adj z ∧ pre.length + 1 ≤ w.length := by
  intro w
  induction w using List.reverseRecOn with
  | nil =>
      intro x u hw _ _
      exact absurd rfl (isWalk_ne_nil adj x u [] hw)
  | append_singleton w' a ih =>
      intro x u hw hx hu
      have ha : u = a := by
        have h2 := hw.2.1
        rw [List.getLast?_concat] at h2
        exact (Option.some.injEq _ _ ▸ h2).symm
      subst ha
      cases hw' : w' with
      | nil =>
          exfalso
          have h1 := hw.1
          rw [hw'] at h1
          simp at h1
          exact hu (h1 ▸ hx)
      | cons b t =>
          have hwne : w' ≠ [] := by rw [hw']; simp
          obtain ⟨z', hz'⟩ : ∃ z', w'.getLast? = some z' := by
            cases hh : w'.getLast? with
            | none => exact absurd (List.getLast?_eq_none_iff.mp hh) hwne
            | some z' => exact ⟨z', rfl⟩
          have hchain := hw.2.2
          rw [List.chain'_append] at hchain
          have hstep : u ∈ adj z' := hchain.2.2 z' hz' u (by simp)
          have hwalk : IsWalk adj x z' w' := by
            refine ⟨?_, hz', hchain.1⟩
            have h1 := hw.1
            rw [hw'] at h1 ⊢
            simpa using h1
          by_cases hz'V : z' ∈ V
          · exact ⟨w', z', u, hwalk, hz'V, hu, hstep, by simp [hw']⟩
          · obtain ⟨pre, z, u', hp1, hp2, hp3, hp4, hp5⟩ := ih x z' hwalk hx hz'V
            refine ⟨pre, z, u', hp1, hp2, hp3, hp4, ?_⟩
            simp only [hw', List.length_cons, List.length_append, List.length_singleton] at hp5 ⊢
            omega

theorem newNodes_subset :
    ∀ (ns : List String) (V : Finset String) (a : String),
      a ∈ newNodesOf V ns → a ∈ ns ∧ a ∉ V := by
  intro ns
  induction ns with
  | nil => intro V a h; simp [newNodesOf] at h
  | cons n t ih =>
      intro V a h
      by_cases hn : n ∈ V
      · rw [newNodesOf, if_pos hn] at h
        obtain ⟨h1, h2⟩ := ih V a h
        exact ⟨List.mem_cons_of_mem _ h1, h2⟩
      · rw [newNodesOf, if_neg hn] at h
        rcases List.mem_cons.mp h with rfl | h
        · exact ⟨List.mem_cons_self _ _, hn⟩
        · obtain ⟨h1, h2⟩ := ih (insert n V) a h
          exact ⟨List.mem_cons_of_mem _ h1, fun hV => h2 (Finset.mem_insert_of_mem hV)⟩

theorem newNodes_complete :
    ∀ (ns : List String) (V : Finset String) (a : String),
      a ∈ ns → a ∉ V → a ∈ newNodesOf V ns := by
  intro ns
  induction ns with
  | nil => intro V a h; simp at h
  | cons n t ih =>
      intro V a h haV
      by_cases hn : n ∈ V
      · rw [newNodesOf, if_pos hn]
        rcases List.mem_cons.mp h with rfl | h
        · exact absurd hn haV
        · exact ih V a h haV
      · rw [newNodesOf, if_neg hn]
        rcases List.mem_cons.mp h with rfl | h
        · exact List.mem_cons_self _ _
        · by_cases han : a = n
          · subst han; exact List.mem_cons_self _ _
          · refine List.mem_cons_of_mem _ (ih (insert n V) a h ?_)
            intro hmem
            rcases Finset.mem_insert.mp hmem with h' | h'
            · exact han h'
            · exact haV h'

theorem newNodes_idx_pairwise :
    ∀ (ns : List String) (V : Finset String),
      (newNodesOf V ns).Pairwise (fun a b => ns.indexOf a < ns.indexOf b) := by
  intro ns
  induction ns with
  | nil => intro V; simp [newNodesOf]
  | cons n t ih =>
      intro V
      by_cases hn : n ∈ V
      · rw [newNodesOf, if_pos hn]
        refine (ih V).imp_of_mem ?_
        intro a b ha hb hlt
        obtain ⟨_, haV⟩ := newNodes_subset t V a ha
        obtain ⟨_, hbV⟩ := newNodes_subset t V b hb
        have hna : a ≠ n := fun h => haV (h ▸ hn)
        have hnb : b ≠ n := fun h => hbV (h ▸ hn)
        rw [List.indexOf_cons_ne _ (Ne.symm hna), List.indexOf_cons_ne _ (Ne.symm hnb)]
        exact Nat.succ_lt_succ hlt
      · rw [newNodesOf, if_neg hn]
        refine List.pairwise_cons.mpr ⟨?_, ?_⟩
        · intro b hb
          obtain ⟨_, hbV⟩ := newNodes_subset t (insert n V) b hb
          have hnb : b ≠ n := fun h => hbV (h ▸ Finset.mem_insert_self n V)
          rw [List.indexOf_cons_self, List.indexOf_cons_ne _ (Ne.symm hnb)]
          exact Nat.succ_pos _
        · refine (ih (insert n V)).imp_of_mem ?_
          intro a b ha hb hlt
          obtain ⟨_, haV⟩ := newNodes_subset t (insert n V) a ha
          obtain ⟨_, hbV⟩ := newNodes_subset t (insert n V) b hb
          have hna : a ≠ n := fun h => haV (h ▸ Finset.mem_insert_self n V)
          have hnb : b ≠ n := fun h => hbV (h ▸ Finset.mem_insert_self n V)
          rw [List.indexOf_cons_ne _ (Ne.symm hna), List.indexOf_cons_ne _ (Ne.symm hnb)]
          exact Nat.succ_lt_succ hlt

theorem newNodes_nodup (ns : List String) (V : Finset String) :
    (newNodesOf V ns).Nodup := by
  refine (newNodes_idx_pairwise ns V).imp ?_
  intro a b h
  rintro rfl
  exact absurd h (lt_irrefl _)

theorem scan_inl (endId : String) (path : List String) :
    ∀ (ns : List String) (V : Finset String) (acc : List (List String)),
      endId ∈ ns → scanNeighbors endId path ns V acc = Sum.inl (path ++ [endId]) := by
  intro ns
  induction ns with
  | nil => intro V acc h; simp at h
  | cons n t ih =>
      intro V acc h
      by_cases hn : n = endId
      · subst hn; simp [scanNeighbors]
      · have ht : endId ∈ t := by
          rcases List.mem_cons.mp h with h | h
          · exact absurd h.symm hn
          · exact h
        by_cases hv : n ∈ V
        · rw [scanNeighbors, if_neg hn, if_pos hv]
          exact ih V acc ht
        · rw [scanNeighbors, if_neg hn, if_neg hv]
          exact ih _ _ ht

theorem scan_inr (endId : String) (path : List String) :
    ∀ (ns : List String) (V : Finset String) (acc : List (List String)),
      endId ∉ ns →
      ∃ V', scanNeighbors endId path ns V acc
          = Sum.inr (V', acc ++ (newNodesOf V ns).map (fun n => path ++ [n]))
        ∧ ∀ z, z ∈ V' ↔ z ∈ V ∨ z ∈ newNodesOf V ns := by
  intro ns
  induction ns with
  | nil =>
      intro V acc _
      exact ⟨V, by simp [scanNeighbors, newNodesOf], fun z => by simp [newNodesOf]⟩
  | cons n t ih =>
      intro V acc h
      have hne : n ≠ endId := fun hh => h (hh ▸ List.mem_cons_self n t)
      have ht : endId ∉ t := fun hh => h (List.mem_cons_of_mem _ hh)
      by_cases hv : n ∈ V
      · obtain ⟨V', h1, h2⟩ := ih V acc ht
        refine ⟨V', ?_, ?_⟩
        · rw [scanNeighbors, if_neg hne, if_pos hv, h1, newNodesOf, if_pos hv]
        · intro z
          rw [h2 z, newNodesOf, if_pos hv]
      · obtain ⟨V', h1, h2⟩ := ih (insert n V) (acc ++ [path ++ [n]]) ht
        refine ⟨V', ?_, ?_⟩
        · rw [scanNeighbors, if_neg hne, if_neg hv, h1, newNodesOf, if_neg hv]
          simp
        · intro z
          rw [h2 z, newNodesOf, if_neg hv]
          simp only [Finset.mem_insert, List.mem_cons]
          tauto

theorem queue_head_min_len (adj : String → List String) (start : String)
    (path : List String) (rest : List (List String))
    (hsorted : List.Pairwise
      (fun p r => WalkLt adj start p r ∧ ∀ n, WalkLt adj start r (p ++ [n]))
      (path :: rest)) :
    ∀ p ∈ path :: rest, path.length ≤ p.length := by
  intro p hp
  rcases List.mem_cons.mp hp with rfl | hp
  · exact le_refl _
  · exact walkLt_le_length adj start path p ((List.pairwise_cons.mp hsorted).1 p hp).1

theorem walkBound (adj : String → List String) (start endId : String) (V : Finset String)
    (path : List String) (rest : List (List String))
    (inv : BfsInv adj start endId V (path :: rest)) :
    ∀ (u : String) (w : List String), u ∉ V → IsWalk adj start u w →
      path.length + 1 ≤ w.length := by
  intro u w huV hw
  obtain ⟨pre, z, u', hpre, hzV, hu'V, hu'adj, hlen⟩ :=
    frontier_split adj V w start u hw inv.start_mem huV
  rcases inv.expanded z hzV with ⟨p₀, hp₀q, hp₀last⟩ | ⟨hall, _⟩
  · obtain ⟨l, hl, _, _, hmin⟩ := inv.queue_min p₀ hp₀q
    have hlz : z = l := by
      rw [hl] at hp₀last
      exact (Option.some.inj hp₀last).symm
    subst hlz
    have hple : p₀.length ≤ pre.length := by
      rcases hmin.2 pre hpre with rfl | hlt
      · exact le_refl _
      · exact walkLt_le_length adj start _ _ hlt
    have hpath : path.length ≤ p₀.length :=
      queue_head_min_len adj start path rest inv.sorted p₀ hp₀q
    omega
  · exact absurd (hall u' hu'adj) hu'V

theorem extend_min (adj : String → List String) (start endId : String) (V : Finset String)
    (path : List String) (rest : List (List String))
    (inv : BfsInv adj start endId V (path :: rest))
    (m c : String) (hc : path.getLast? = some c)
    (hm : m ∈ adj c) (hmV : m ∉ V)
    (hproc : ∀ u ∈ V, (¬ ∃ p ∈ path :: rest, p.getLast? = some u) → m ∉ adj u) :
    IsMinWalk adj start m (path ++ [m]) := by
  obtain ⟨l, hl, hlV, hlne, hmin⟩ := inv.queue_min path (List.mem_cons_self _ _)
  have hlc : l = c := Option.some.inj (hl ▸ hc)
  subst hlc
  refine ⟨isWalk_snoc adj start l m path hmin.1 hm, ?_⟩
  intro w hw
  have hsm : start ≠ m := fun h => hmV (h ▸ inv.start_mem)
  obtain ⟨w', u, rfl, hw', hmu⟩ := isWalk_split adj start m w hw hsm
  by_cases huV : u ∈ V
  · by_cases hq : ∃ p ∈ path :: rest, p.getLast? = some u
    · obtain ⟨p₀, hp₀q, hp₀last⟩ := hq
      obtain ⟨l₀, hl₀, _, _, hmin₀⟩ := inv.queue_min p₀ hp₀q
      have hl₀u : l₀ = u := Option.some.inj (hl₀ ▸ hp₀last)
      subst hl₀u
      rcases List.mem_cons.mp hp₀q with rfl | hrest
      · rcases hmin₀.2 w' hw' with rfl | hlt
        · exact Or.inl rfl
        · exact Or.inr (walkLt_append adj start _ _ hlt m m)
      · have hlt0 : WalkLt adj start path p₀ :=
          ((List.pairwise_cons.mp inv.sorted).1 p₀ hrest).1
        have hltw : WalkLt adj start path w' := by
          rcases hmin₀.2 w' hw' with rfl | hlt
          · exact hlt0
          · exact walkLt_trans adj start _ _ _ hlt0 hlt
        exact Or.inr (walkLt_append adj start _ _ hltw m m)
    · exact absurd hmu (hproc u huV hq)
  · have hb := walkBound adj start endId V path rest inv u w' huV hw'
    refine Or.inr (Or.inl ?_)
    simp only [List.length_append, List.length_singleton]
    omega

theorem inv_step (adj : String → List String) (start endId : String) (V : Finset String)
    (path : List String) (rest : List (List String))
    (inv : BfsInv adj start endId V (path :: rest))
    (c : String) (hc : path.getLast? = some c) (hnend : endId ∉ adj c)
    (V' : Finset String)
    (hV' : ∀ z, z ∈ V' ↔ z ∈ V ∨ z ∈ newNodesOf V (adj c)) :
    BfsInv adj start endId V'
      (rest ++ (newNodesOf V (adj c)).map (fun n => path ++ [n])) := by
  have hpc := List.pairwise_cons.mp inv.sorted
  refine ⟨?_, ?_, ?_, ?_, ?_⟩
  · exact (hV' start).mpr (Or.inl inv.start_mem)
  · intro h
    rcases (hV' endId).mp h with h | h
    · exact inv.end_not_mem h
    · exact hnend (newNodes_subset (adj c) V endId h).1
  · intro p hp
    rcases List.mem_append.mp hp with hp | hp
    · obtain ⟨l, h1, h2, h3, h4⟩ := inv.queue_min p (List.mem_cons_of_mem _ hp)
      exact ⟨l, h1, (hV' l).mpr (Or.inl h2), h3, h4⟩
    · obtain ⟨n, hnN, rfl⟩ := List.mem_map.mp hp
      obtain ⟨hnadj, hnV⟩ := newNodes_subset (adj c) V n hnN
      refine ⟨n, List.getLast?_concat _, (hV' n).mpr (Or.inr hnN), ?_, ?_⟩
      · rintro rfl; exact hnend hnadj
      · refine extend_min adj start endId V path rest inv n c hc hnadj hnV ?_
        intro u huV hq
        rcases inv.expanded u huV with h | ⟨hall, _⟩
        · exact absurd h hq
        · exact fun hmem => hnV (hall n hmem)
  · refine List.pairwise_append.mpr ⟨hpc.2, ?_, ?_⟩
    · refine List.pairwise_map.mpr ?_
      refine (newNodes_idx_pairwise (adj c) V).imp_of_mem ?_
      intro a b _ _ hab
      constructor
      · exact Or.inr ⟨by simp, lexLt_append_last adj path start c a b hc hab⟩
      · intro n'
        refine Or.inl ?_
        simp only [List.length_append, List.length_singleton]
        omega
    · intro r hr np hnp
      obtain ⟨n, hnN, rfl⟩ := List.mem_map.mp hnp
      have h1 := hpc.1 r hr
      exact ⟨h1.2 n, fun n' => walkLt_append adj start _ _ h1.1 n n'⟩
  · intro v hv
    rcases (hV' v).mp hv with hvV | hvN
    · rcases inv.expanded v hvV with ⟨p, hpq, hplast⟩ | ⟨hall, hne⟩
      · rcases List.mem_cons.mp hpq with rfl | hrest
        · have hvc : v = c := by
            rw [hplast] at hc
            exact Option.some.inj hc
          subst hvc
          refine Or.inr ⟨?_, hnend⟩
          intro n hn
          by_cases hnV : n ∈ V
          · exact (hV' n).mpr (Or.inl hnV)
          · exact (hV' n).mpr (Or.inr (newNodes_complete (adj v) V n hn hnV))
        · exact Or.inl ⟨p, List.mem_append_left _ hrest, hplast⟩
      · exact Or.inr ⟨fun n hn => (hV' n).mpr (Or.inl (hall n hn)), hne⟩
    · refine Or.inl ⟨path ++ [v], ?_, List.getLast?_concat _⟩
      exact List.mem_append_right _ (List.mem_map.mpr ⟨v, hvN, rfl⟩)

theorem measure_step (U : List String) (V V' : Finset String)
    (N : List String) (hNod : N.Nodup)
    (hNU : ∀ a ∈ N, a ∈ U) (hNV : ∀ a ∈ N, a ∉ V)
    (hV' : ∀ z, z ∈ V' ↔ z ∈ V ∨ z ∈ N)
    (path : List String) (rest newPaths : List (List String))
    (hlen : newPaths.length = N.length) :
    bfsMeasure U V' (rest ++ newPaths) < bfsMeasure U V (path :: rest) := by
  have hsub : N.toFinset ⊆ U.toFinset \ V := by
    intro a ha
    rw [List.mem_toFinset] at ha
    exact Finset.mem_sdiff.mpr ⟨List.mem_toFinset.mpr (hNU a ha), hNV a ha⟩
  have hsub2 : U.toFinset \ V' ⊆ (U.toFinset \ V) \ N.toFinset := by
    intro z hz
    rw [Finset.mem_sdiff] at hz
    rw [Finset.mem_sdiff, Finset.mem_sdiff, List.mem_toFinset]
    have hno : ¬ (z ∈ V ∨ z ∈ N) := fun h => hz.2 ((hV' z).mpr h)
    push_neg at hno
    exact ⟨⟨List.mem_toFinset.mp hz.1, hno.1⟩, fun hm => hno.2 (List.mem_toFinset.mp hm)⟩
  have hcard1 : (U.toFinset \ V').card ≤ ((U.toFinset \ V) \ N.toFinset).card :=
    Finset.card_le_card hsub2
  have hcard2 : ((U.toFinset \ V) \ N.toFinset).card
      = (U.toFinset \ V).card - N.toFinset.card := Finset.card_sdiff hsub
  have hcard3 : N.toFinset.card ≤ (U.toFinset \ V).card := Finset.card_le_card hsub
  have hcardN : N.toFinset.card = N.length := List.toFinset_card_of_nodup hNod
  unfold bfsMeasure
  simp only [List.length_append, List.length_cons]
  omega

theorem bfsLoop_cons (adj : String → List String) (endId : String) (fuel : Nat)
    (V : Finset String) (path : List String) (rest : List (List String))
    (c : String) (hc : path.getLast? = some c) :
    bfsLoop adj endId (fuel + 1) V (path :: rest)
      = match scanNeighbors endId path (adj c) V [] with
        | Sum.inl found => found
        | Sum.inr (V', newPaths) => bfsLoop adj endId fuel V' (rest ++ newPaths) := by
  simp only [bfsLoop, hc]

theorem bfsLoop_unreach (adj : String → List String) (start endId : String)
    (hunreach : ¬ ∃ w, IsWalk adj start endId w) :
    ∀ (fuel : Nat) (V : Finset String) (q : List (List String)),
      (∀ p ∈ q, ∃ l, p.getLast? = some l ∧ IsWalk adj start l p) →
      bfsLoop adj endId fuel V q = [] := by
  intro fuel
  induction fuel with
  | zero => intro V q _; rfl
  | succ fuel ih =>
      intro V q hq
      cases q with
      | nil => rfl
      | cons path rest =>
          obtain ⟨l, hl, hwalk⟩ := hq path (List.mem_cons_self _ _)
          rw [bfsLoop_cons adj endId fuel V path rest l hl]
          by_cases hend : endId ∈ adj l
          · exact absurd
              ⟨path ++ [endId], isWalk_snoc adj start l endId path hwalk hend⟩ hunreach
          · obtain ⟨V', h1, _⟩ := scan_inr endId path (adj l) V [] hend
            rw [h1]
            apply ih
            intro p hp
            rcases List.mem_append.mp hp with hp | hp
            · exact hq p (List.mem_cons_of_mem _ hp)
            · obtain ⟨n, hnN, rfl⟩ := List.mem_map.mp hp
              exact ⟨n, List.getLast?_concat _,
                isWalk_snoc adj start l n path hwalk (newNodes_subset (adj l) V n hnN).1⟩

theorem bfsLoop_min (adj : String → List String) (start endId : String) (U : List String)
    (hU : ∀ v, ∀ n ∈ adj v, n ∈ U)
    (hreach : ∃ w, IsWalk adj start endId w) :
    ∀ (fuel : Nat) (V : Finset String) (q : List (List String)),
      BfsInv adj start endId V q → bfsMeasure U V q < fuel →
      IsMinWalk adj start endId (bfsLoop adj endId fuel V q) := by
  intro fuel
  induction fuel with
  | zero => intro V q _ hm; omega
  | succ fuel ih =>
      intro V q inv hm
      cases q with
      | nil =>
          exfalso
          obtain ⟨w, hw⟩ := hreach
          obtain ⟨_, z, u', _, hzV, hu'V, hu'adj, _⟩ :=
            frontier_split adj V w start endId hw inv.start_mem inv.end_not_mem
          rcases inv.expanded z hzV with ⟨p, hp, _⟩ | ⟨hall, _⟩
          · simp at hp
          · exact hu'V (hall u' hu'adj)
      | cons path rest =>
          obtain ⟨c, hc, hcV, hcne, hcmin⟩ := inv.queue_min path (List.mem_cons_self _ _)
          rw [bfsLoop_cons adj endId fuel V path rest c hc]
          by_cases hend : endId ∈ adj c
          · rw [scan_inl endId path (adj c) V [] hend]
            refine extend_min adj start endId V path rest inv endId c hc hend
              inv.end_not_mem ?_
            intro u huV hq2
            rcases inv.expanded u huV with h | ⟨_, hne2⟩
            · exact absurd h hq2
            · exact hne2
          · obtain ⟨V', h1, h2⟩ := scan_inr endId path (adj c) V [] hend
            rw [h1]
            simp only [List.nil_append]
            have hinv' := inv_step adj start endId V path rest inv c hc hend V' h2
            have hmeas := measure_step U V V' (newNodesOf V (adj c))
              (newNodes_nodup _ _)
              (fun a ha => hU c a (newNodes_subset _ _ a ha).1)
              (fun a ha => (newNodes_subset _ _ a ha).2)
              h2 path rest ((newNodesOf V (adj c)).map (fun n => path ++ [n]))
              (by simp)
            exact ih V' _ hinv' (by omega)

theorem bfsInv_init (adj : String → List String) (start endId : String)
    (hne : start ≠ endId) : BfsInv adj start endId {start} [[start]] := by
  refine ⟨Finset.mem_singleton_self start, ?_, ?_, ?_, ?_⟩
  · intro h
    exact hne (Finset.mem_singleton.mp h).symm
  · intro p hp
    rcases List.mem_cons.mp hp with rfl | hp
    · refine ⟨start, by simp, Finset.mem_singleton_self start, hne,
        ⟨rfl, by simp, List.chain'_singleton _⟩, ?_⟩
      intro q hq
      obtain ⟨hq1, _, _⟩ := hq
      cases q with
      | nil => simp at hq1
      | cons a t =>
          have ha : a = start := by simpa using hq1
          subst ha
          cases t with
          | nil => exact Or.inl rfl
          | cons b s => exact Or.inr (Or.inl (by simp))
    · simp at hp
  · simp
  · intro v hv
    rw [Finset.mem_singleton] at hv
    subst hv
    exact Or.inl ⟨[v], List.mem_cons_self _ _, by simp⟩

theorem bfsRun_min (adj : String → List String) (U : List String)
    (hU : ∀ v, ∀ n ∈ adj v, n ∈ U) (x y : String) (hne : x ≠ y)
    (hreach : ∃ w, IsWalk adj x y w) :
    IsMinWalk adj x y (bfsLoop adj y (2 * U.length + 2) {x} [[x]]) := by
  apply bfsLoop_min adj x y U hU hreach
  · exact bfsInv_init adj x y hne
  · unfold bfsMeasure
    have h1 : (U.toFinset \ {x}).card ≤ U.toFinset.card :=
      Finset.card_le_card Finset.sdiff_subset
    have h2 : U.toFinset.card ≤ U.length := List.toFinset_card_le U
    simp only [List.length_cons, List.length_nil]
    omega

theorem bfsRun_unreach (adj : String → List String) (x y : String)
    (hunreach : ¬ ∃ w, IsWalk adj x y w) (fuel : Nat) :
    bfsLoop adj y fuel {x} [[x]] = [] := by
  apply bfsLoop_unreach adj x y hunreach
  intro p hp
  rcases List.mem_cons.mp hp with rfl | hp
  · exact ⟨x, by simp, rfl, by simp, List.chain'_singleton _⟩
  · simp at hp

theorem adjacency_mem_edgeNodes (edges : List RawEdge) (v n : String)
    (hn : n ∈ adjacencyOf edges v) : n ∈ edgeNodes edges := by
  rw [mem_adjacencyOf] at hn
  obtain ⟨e, he, h⟩ := hn
  unfold edgeNodes
  rcases h with ⟨_, rfl⟩ | ⟨_, rfl⟩
  · exact List.mem_flatMap.mpr ⟨e, he, by simp⟩
  · exact List.mem_flatMap.mpr ⟨e, he, by simp⟩

/-- C1: `bfsPath(x, y)` returns `[x]` when `x == y`; returns `[]` when `y`
is unreachable from `x` in the undirected adjacency graph; and otherwise
returns a walk from `x` to `y` of minimal hop count, least in the
`WalkLt` order among all walks from `x` to `y` (fewest hops first, ties
broken lexicographically by adjacency-list enumeration position, which is
insertion order of the membership edges). -/
theorem bfsPath_correct (edges : List RawEdge) (x y : String) :
    (x = y → bfsPath edges x y = [x])
    ∧ (x ≠ y → (¬ ∃ w, IsWalk (adjacencyOf edges) x y w) → bfsPath edges x y = [])
    ∧ (x ≠ y → (∃ w, IsWalk (adjacencyOf edges) x y w) →
        IsWalk (adjacencyOf edges) x y (bfsPath edges x y)
        ∧ (∀ w, IsWalk (adjacencyOf edges) x y w →
            (bfsPath edges x y).length ≤ w.length)
        ∧ (∀ w, IsWalk (adjacencyOf edges) x y w →
            bfsPath edges x y = w
              ∨ WalkLt (adjacencyOf edges) x (bfsPath edges x y) w)) := by
  refine ⟨?_, ?_, ?_⟩
  · intro h; subst h; simp [bfsPath]
  · intro hne hunreach
    unfold bfsPath
    rw [if_neg hne]
    exact bfsRun_unreach (adjacencyOf edges) x y hunreach _
  · intro hne hreach
    have hmin : IsMinWalk (adjacencyOf edges) x y (bfsPath edges x y) := by
      unfold bfsPath
      rw [if_neg hne]
      exact bfsRun_min (adjacencyOf edges) (edgeNodes edges)
        (fun v n hn => adjacency_mem_edgeNodes edges v n hn) x y hne hreach
    refine ⟨hmin.1, ?_, hmin.2⟩
    intro w hw
    rcases hmin.2 w hw with heq | hlt
    · exact le_of_eq (congrArg List.length heq)
    · exact walkLt_le_length _ _ _ _ hlt

/-- Witness for C1: on the concrete graph with edges c-b1 and c-b2, the
hypotheses (distinct endpoints, reachability via the walk b1-c-b2) hold and
the theorem applies. -/
theorem bfsPath_correct_witness :
    IsWalk (adjacencyOf [⟨"c", "b1"⟩, ⟨"c", "b2"⟩]) "b1" "b2"
        (bfsPath [⟨"c", "b1"⟩, ⟨"c", "b2"⟩] "b1" "b2")
    ∧ (∀ w, IsWalk (adjacencyOf [⟨"c", "b1"⟩, ⟨"c", "b2"⟩]) "b1" "b2" w →
        (bfsPath [⟨"c", "b1"⟩, ⟨"c", "b2"⟩] "b1" "b2").length ≤ w.length)
    ∧ (∀ w, IsWalk (adjacencyOf [⟨"c", "b1"⟩, ⟨"c", "b2"⟩]) "b1" "b2" w →
        bfsPath [⟨"c", "b1"⟩, ⟨"c", "b2"⟩] "b1" "b2" = w
          ∨ WalkLt (adjacencyOf [⟨"c", "b1"⟩, ⟨"c", "b2"⟩]) "b1"
              (bfsPath [⟨"c", "b1"⟩, ⟨"c", "b2"⟩] "b1" "b2") w) :=
  (bfsPath_correct [⟨"c", "b1"⟩, ⟨"c", "b2"⟩] "b1" "b2").2.2 (by decide)
    ⟨["b1", "c", "b2"], by
      refine ⟨rfl, rfl, ?_⟩
      refine List.chain'_cons.mpr ⟨?_, List.chain'_cons.mpr ⟨?_, List.chain'_singleton _⟩⟩
      · rw [mem_adjacencyOf]
        exact ⟨⟨"c", "b1"⟩, by simp, Or.inr ⟨rfl, rfl⟩⟩
      · rw [mem_adjacencyOf]
        exact ⟨⟨"c", "b2"⟩, by simp, Or.inl ⟨rfl, rfl⟩⟩⟩

end ArenaGraph
